import Mathlib

/-!
# BESS telemetry ingestion: a shallow embedding

Embedding of `backend/src/ingestion/nasaTelemetry.js` (`normaliseMetric`,
`normaliseAsset`, `ingestTelemetry`, `fetchTelemetrySummary`), of
`calculateDashboardMetrics` from `backend/src/app.js`, and of the slice of the
repository (`findOne` / `create` / `save`) that the ingestion loop drives.

* JavaScript values are the inductive type `JSVal`; numbers are `JSNum`
  (`NaN`, the two infinities, or a finite value carried as a rational).
* The language built-ins `Number(v)` and `new Date(v)` are fields of a `Host`
  record that every definition takes as a parameter.
* A valid `Date` is its millisecond time value (an `Int`).
* The wall clock `new Date()` is a function from the index of the record being
  processed to the instant read for it.
* The repository is the list of stored documents in insertion order.
* The number operations of the aggregation code (`+`, `*`, `/`,
  `Number(x.toFixed(2))`) are fields of an `Arith` record taken as a parameter;
  a JavaScript `Map` is the list of its entries in insertion order.
-/

namespace Bess

/-! ## JavaScript values -/

/-- A JavaScript number: `NaN`, `+Infinity`, `-Infinity` or a finite value. -/
inductive JSNum where
  | nan
  | posInf
  | negInf
  | fin (q : ℚ)
  deriving DecidableEq, Repr

/-- The test `Number.isFinite(n)`. -/
def JSNum.isFinite : JSNum → Bool
  | .fin _ => true
  | _ => false

/-- The truthiness of a number: `0` and `NaN` are falsy. -/
def JSNum.truthy : JSNum → Bool
  | .fin q => decide (q ≠ 0)
  | .nan => false
  | _ => true

/-- A JavaScript value as it reaches the ingestion code: the JSON values, plus
`undefined` and `Date` objects (`date none` is an invalid `Date`). -/
inductive JSVal where
  | undefined
  | null
  | bool (b : Bool)
  | num (n : JSNum)
  | str (s : String)
  | date (t : Option Int)
  | arr (xs : List JSVal)
  | obj (fields : List (String × JSVal))

mutual
/-- Structural equality test on values. -/
def JSVal.beq : JSVal → JSVal → Bool
  | .undefined, .undefined => true
  | .null, .null => true
  | .bool a, .bool b => a == b
  | .num a, .num b => decide (a = b)
  | .str a, .str b => a == b
  | .date a, .date b => a == b
  | .arr a, .arr b => JSVal.beqList a b
  | .obj a, .obj b => JSVal.beqFields a b
  | _, _ => false
/-- Structural equality test on arrays of values. -/
def JSVal.beqList : List JSVal → List JSVal → Bool
  | [], [] => true
  | a :: as, b :: bs => JSVal.beq a b && JSVal.beqList as bs
  | _, _ => false
/-- Structural equality test on property lists. -/
def JSVal.beqFields : List (String × JSVal) → List (String × JSVal) → Bool
  | [], [] => true
  | (k, a) :: as, (l, b) :: bs => k == l && JSVal.beq a b && JSVal.beqFields as bs
  | _, _ => false
end

mutual
theorem JSVal.beq_iff : ∀ a b : JSVal, JSVal.beq a b = true ↔ a = b
  | .undefined, b => by cases b <;> simp [JSVal.beq]
  | .null, b => by cases b <;> simp [JSVal.beq]
  | .bool a, b => by cases b <;> simp [JSVal.beq]
  | .num a, b => by cases b <;> simp [JSVal.beq]
  | .str a, b => by cases b <;> simp [JSVal.beq]
  | .date a, b => by cases b <;> simp [JSVal.beq]
  | .arr a, b => by
      cases b <;> simp [JSVal.beq]
      exact JSVal.beqList_iff a _
  | .obj a, b => by
      cases b <;> simp [JSVal.beq]
      exact JSVal.beqFields_iff a _
theorem JSVal.beqList_iff : ∀ a b : List JSVal, JSVal.beqList a b = true ↔ a = b
  | [], b => by cases b <;> simp [JSVal.beqList]
  | x :: xs, b => by
      cases b with
      | nil => simp [JSVal.beqList]
      | cons y ys => simp [JSVal.beqList, JSVal.beq_iff x y, JSVal.beqList_iff xs ys]
theorem JSVal.beqFields_iff :
    ∀ a b : List (String × JSVal), JSVal.beqFields a b = true ↔ a = b
  | [], b => by cases b <;> simp [JSVal.beqFields]
  | (k, x) :: xs, b => by
      cases b with
      | nil => simp [JSVal.beqFields]
      | cons y ys =>
        obtain ⟨l, y⟩ := y
        simp [JSVal.beqFields, JSVal.beq_iff x y, JSVal.beqFields_iff xs ys, and_assoc]
end

instance : DecidableEq JSVal := fun a b =>
  decidable_of_iff (JSVal.beq a b = true) (JSVal.beq_iff a b)

/-- The truthiness of a value (`!v` is its negation): `undefined`, `null`,
`false`, `0`, `NaN` and the empty string are falsy, every object is truthy. -/
def JSVal.truthy : JSVal → Bool
  | .undefined => false
  | .null => false
  | .bool b => b
  | .num n => n.truthy
  | .str s => decide (s ≠ "")
  | .date _ => true
  | .arr _ => true
  | .obj _ => true

/-- The test `typeof v === 'object'`. -/
def JSVal.isObject : JSVal → Bool
  | .null => true
  | .date _ => true
  | .arr _ => true
  | .obj _ => true
  | _ => false

/-- Lookup of a property in a property list; a missing property reads as
`undefined`. -/
def lookupField (k : String) : List (String × JSVal) → JSVal
  | [] => .undefined
  | (l, v) :: rest => if l = k then v else lookupField k rest

/-- The property read `v.k` for the property names the ingestion code reads
(`assetId`, `site`, ..., `metrics`, `timestamp`, `stateOfCharge`,
`temperatureC`): only a plain object can carry them. -/
def JSVal.get (v : JSVal) (k : String) : JSVal :=
  match v with
  | .obj fields => lookupField k fields
  | _ => .undefined

/-- The language built-ins the ingestion code calls on raw values. -/
structure Host where
  /-- The coercion `Number(v)`. -/
  Number : JSVal → JSNum
  /-- The constructor `new Date(v)`: the time value in milliseconds, or `none`
  for an invalid `Date` (one whose `getTime()` is `NaN`). -/
  newDate : JSVal → Option Int

/-- The key `date.toISOString()` of a valid `Date`. The rendering
`YYYY-MM-DDTHH:mm:ss.sssZ` is one string per millisecond instant, so the key
is represented by the instant. -/
def toISOString (t : Int) : Int := t

/-! ## Normalisation -/

/-- The errors thrown by the ingestion code. -/
inductive IngestError where
  | invalidMetricPayload (assetId : JSVal)
  | invalidMetricTimestamp (assetId : JSVal)
  | invalidMetricNumeric (assetId : JSVal)
  | recordNotObject
  | missingAssetId
  | missingNumericField (assetId : JSVal) (field : String)
  | recordsNotArray
  deriving DecidableEq

deriving instance DecidableEq for Except

/-- A normalised telemetry sample. -/
structure Metric where
  timestamp : Int
  stateOfCharge : JSNum
  temperatureC : JSNum
  deriving DecidableEq

/-- A normalised asset record, as returned by `normaliseAsset`. -/
structure Asset where
  assetId : JSVal
  site : JSVal
  region : JSVal
  capacityMWh : JSNum
  powerRatingMW : JSNum
  roundTripEfficiency : JSNum
  availability : JSNum
  status : JSVal
  metrics : List Metric
  deriving DecidableEq

/-- Source: `normaliseMetric(metric, assetId)`. -/
def normaliseMetric (H : Host) (metric : JSVal) (assetId : JSVal) :
    Except IngestError Metric :=
  if !metric.truthy || !metric.isObject then
    .error (.invalidMetricPayload assetId)
  else
    match H.newDate (metric.get "timestamp") with
    | none => .error (.invalidMetricTimestamp assetId)
    | some timestamp =>
      let stateOfCharge := H.Number (metric.get "stateOfCharge")
      let temperatureC := H.Number (metric.get "temperatureC")
      if !stateOfCharge.isFinite || !temperatureC.isFinite then
        .error (.invalidMetricNumeric assetId)
      else
        .ok { timestamp := timestamp, stateOfCharge := stateOfCharge,
              temperatureC := temperatureC }

/-- The loop `for (const [field, value] of Object.entries(requiredNumericFields))`
of `normaliseAsset`: the first field whose value does not coerce to a finite
number throws. -/
def checkNumericFields (H : Host) (assetId : JSVal) :
    List (String × JSVal) → Except IngestError Unit
  | [] => .ok ()
  | (field, value) :: rest =>
    if !(H.Number value).isFinite then
      .error (.missingNumericField assetId field)
    else checkNumericFields H assetId rest

/-- The call `metrics.map((metric) => normaliseMetric(metric, assetId))`: the
first element that is rejected throws. -/
def normaliseMetrics (H : Host) (assetId : JSVal) :
    List JSVal → Except IngestError (List Metric)
  | [] => .ok []
  | m :: rest =>
    match normaliseMetric H m assetId with
    | .error e => .error e
    | .ok x =>
      match normaliseMetrics H assetId rest with
      | .error e => .error e
      | .ok xs => .ok (x :: xs)

/-- Source: `normaliseAsset(record)`. -/
def normaliseAsset (H : Host) (record : JSVal) : Except IngestError Asset :=
  if !record.truthy || !record.isObject then
    .error .recordNotObject
  else
    let assetId := record.get "assetId"
    let site := record.get "site"
    let region := record.get "region"
    let capacityMWh := record.get "capacityMWh"
    let powerRatingMW := record.get "powerRatingMW"
    let roundTripEfficiency := record.get "roundTripEfficiency"
    let availability := record.get "availability"
    let status :=
      if record.get "status" = .undefined then .str "online" else record.get "status"
    let metrics :=
      if record.get "metrics" = .undefined then .arr [] else record.get "metrics"
    if !assetId.truthy then
      .error .missingAssetId
    else
      let requiredNumericFields :=
        [("capacityMWh", capacityMWh), ("powerRatingMW", powerRatingMW),
         ("roundTripEfficiency", roundTripEfficiency), ("availability", availability)]
      match checkNumericFields H assetId requiredNumericFields with
      | .error e => .error e
      | .ok _ =>
        let metricList :=
          match metrics with
          | .arr xs => normaliseMetrics H assetId xs
          | _ => .ok []
        match metricList with
        | .error e => .error e
        | .ok ms =>
          .ok { assetId := assetId, site := site, region := region,
                capacityMWh := H.Number capacityMWh,
                powerRatingMW := H.Number powerRatingMW,
                roundTripEfficiency := H.Number roundTripEfficiency,
                availability := H.Number availability,
                status := status, metrics := ms }

/-! ## The repository -/

/-- A stored document: the asset fields and `lastUpdated`. Stored metric
timestamps are valid `Date`s (the schema types them `Date`, required). -/
structure Doc where
  assetId : JSVal
  site : JSVal
  region : JSVal
  capacityMWh : JSNum
  powerRatingMW : JSNum
  roundTripEfficiency : JSNum
  availability : JSNum
  status : JSVal
  lastUpdated : Int
  metrics : List Metric
  deriving DecidableEq

/-- The repository contents: the stored documents, oldest first. -/
abbrev Store := List Doc

/-- The query `Model.findOne(\x7b assetId \x7d)`: the first stored document with
that `assetId`, if any. Identifiers are compared by value. -/
def findOne (s : Store) (assetId : JSVal) : Option Doc :=
  s.find? (fun d => decide (d.assetId = assetId))

/-- The call `Model.create(payload)`: a new document is added. -/
def create (s : Store) (payload : Doc) : Store :=
  s ++ [payload]

/-- The call `existing.save()` on a document obtained from `findOne`: the
document it was read from (the first one with its `assetId`) is replaced. -/
def save : Store → Doc → Store
  | [], _ => []
  | d :: rest, doc =>
    if d.assetId = doc.assetId then doc :: rest else d :: save rest doc

/-! ## Ingestion -/

/-- The run result `\x7b assetsProcessed, newAssets, metricsInserted \x7d`. -/
structure IngestResult where
  assetsProcessed : Nat
  newAssets : Nat
  metricsInserted : Nat
  deriving DecidableEq, Repr

/-- The loop `for (const metric of asset.metrics)` of `ingestTelemetry`, on the
state `(existing.metrics, existingIndex, metricsInserted)`. -/
def mergeLoop : List Metric → List Metric × List Int × Nat → List Metric × List Int × Nat
  | [], st => st
  | metric :: rest, (metrics, existingIndex, metricsInserted) =>
    let key := toISOString metric.timestamp
    if key ∈ existingIndex then
      mergeLoop rest (metrics, existingIndex, metricsInserted)
    else
      mergeLoop rest (metrics ++ [metric], key :: existingIndex, metricsInserted + 1)

/-- The body of the loop `for (const record of records)` of `ingestTelemetry`
once the record is normalised to `asset`; `now` is the reading of `new Date()`.
Returns the repository and the counters after the record. -/
def ingestAsset (now : Int) (s : Store) (c : IngestResult) (asset : Asset) :
    Store × IngestResult :=
  let assetsProcessed := c.assetsProcessed + 1
  match findOne s asset.assetId with
  | some existing =>
    let existingIndex := existing.metrics.map (fun metric => toISOString metric.timestamp)
    let merged := mergeLoop asset.metrics (existing.metrics, existingIndex, c.metricsInserted)
    let updated : Doc :=
      { assetId := existing.assetId
        site := asset.site
        region := asset.region
        capacityMWh := asset.capacityMWh
        powerRatingMW := asset.powerRatingMW
        roundTripEfficiency := asset.roundTripEfficiency
        availability := asset.availability
        status := asset.status
        lastUpdated := now
        metrics := merged.1 }
    (save s updated,
      { assetsProcessed := assetsProcessed, newAssets := c.newAssets,
        metricsInserted := merged.2.2 })
  | none =>
    let payload : Doc :=
      { assetId := asset.assetId
        site := asset.site
        region := asset.region
        capacityMWh := asset.capacityMWh
        powerRatingMW := asset.powerRatingMW
        roundTripEfficiency := asset.roundTripEfficiency
        availability := asset.availability
        status := asset.status
        lastUpdated := now
        metrics := asset.metrics }
    (create s payload,
      { assetsProcessed := assetsProcessed, newAssets := c.newAssets + 1,
        metricsInserted := c.metricsInserted + asset.metrics.length })

/-- The loop `for (const record of records)` of `ingestTelemetry`, from the
record of index `k`. A record that fails normalisation throws out of the loop:
the repository keeps what the earlier records wrote. -/
def ingestLoop (H : Host) (clock : Nat → Int) :
    Nat → Store → IngestResult → List JSVal → Store × Except IngestError IngestResult
  | _, s, c, [] => (s, .ok c)
  | k, s, c, record :: rest =>
    match normaliseAsset H record with
    | .error e => (s, .error e)
    | .ok asset =>
      let next := ingestAsset (clock k) s c asset
      ingestLoop H clock (k + 1) next.1 next.2 rest

/-- The counters at the start of a run. -/
def zeroResult : IngestResult :=
  { assetsProcessed := 0, newAssets := 0, metricsInserted := 0 }

/-- Source: `ingestTelemetry(records, options)`. Returns the repository after
the run together with the run result or the error thrown. -/
def ingestTelemetry (H : Host) (clock : Nat → Int) (s : Store) (records : JSVal) :
    Store × Except IngestError IngestResult :=
  match records with
  | .arr rs =>
    ingestLoop H clock 0 s zeroResult rs
  | _ => (s, .error .recordsNotArray)

/-- The call `data.map(normaliseAsset)` of `loadTelemetryFromFile`: every
record is normalised, the first failure throws. -/
def normaliseAll (H : Host) : List JSVal → Except IngestError (List Asset)
  | [] => .ok []
  | r :: rest =>
    match normaliseAsset H r with
    | .error e => .error e
    | .ok a =>
      match normaliseAll H rest with
      | .error e => .error e
      | .ok as => .ok (a :: as)

/-- The ingestion loop on records that are already normalised. -/
def ingestAssets (clock : Nat → Int) :
    Nat → Store → IngestResult → List Asset → Store × IngestResult
  | _, s, c, [] => (s, c)
  | k, s, c, asset :: rest =>
    let next := ingestAsset (clock k) s c asset
    ingestAssets clock (k + 1) next.1 next.2 rest

/-- The incoming metrics that the merge step is specified to append to the
metrics `stored`: those whose key equals no stored metric's key and no key of
an incoming metric that came earlier (`earlier`), in arrival order. -/
def keptBySpec (stored : List Metric) : List Metric → List Metric → List Metric
  | _, [] => []
  | earlier, m :: rest =>
    if toISOString m.timestamp ∉ stored.map (fun x => toISOString x.timestamp) ∧
        toISOString m.timestamp ∉ earlier.map (fun x => toISOString x.timestamp) then
      m :: keptBySpec stored (earlier ++ [m]) rest
    else keptBySpec stored (earlier ++ [m]) rest

/-- The asset fields of a stored document: everything except `lastUpdated`. -/
def Doc.toAsset (d : Doc) : Asset :=
  { assetId := d.assetId, site := d.site, region := d.region,
    capacityMWh := d.capacityMWh, powerRatingMW := d.powerRatingMW,
    roundTripEfficiency := d.roundTripEfficiency, availability := d.availability,
    status := d.status, metrics := d.metrics }

/-- The scalar fields that ingestion overwrites agree between a stored document
and a normalised record. -/
def Doc.scalarsMatch (d : Doc) (a : Asset) : Prop :=
  d.site = a.site ∧ d.region = a.region ∧ d.capacityMWh = a.capacityMWh ∧
  d.powerRatingMW = a.powerRatingMW ∧ d.roundTripEfficiency = a.roundTripEfficiency ∧
  d.availability = a.availability ∧ d.status = a.status

instance (d : Doc) (a : Asset) : Decidable (d.scalarsMatch a) := by
  unfold Doc.scalarsMatch; infer_instance

/-- The document written by `Model.create` for a new asset. -/
def Doc.ofAsset (a : Asset) (now : Int) : Doc :=
  { assetId := a.assetId, site := a.site, region := a.region,
    capacityMWh := a.capacityMWh, powerRatingMW := a.powerRatingMW,
    roundTripEfficiency := a.roundTripEfficiency, availability := a.availability,
    status := a.status, lastUpdated := now, metrics := a.metrics }

/-- The document saved for an asset that was already stored as `d`. -/
def Doc.mergeWith (d : Doc) (a : Asset) (now : Int) : Doc :=
  { assetId := d.assetId, site := a.site, region := a.region,
    capacityMWh := a.capacityMWh, powerRatingMW := a.powerRatingMW,
    roundTripEfficiency := a.roundTripEfficiency, availability := a.availability,
    status := a.status, lastUpdated := now,
    metrics := d.metrics ++ keptBySpec d.metrics [] a.metrics }

/-- The key of a metric. -/
def Metric.key (m : Metric) : Int := toISOString m.timestamp

/-- The effect of re-ingesting a record on the asset fields of the stored
documents when it appends no metric: the first entry with the record's assetId
takes the record's scalar fields and keeps its metrics. -/
def overwriteScalars (a : Asset) : List Asset → List Asset
  | [] => []
  | x :: rest =>
    if x.assetId = a.assetId then { a with metrics := x.metrics } :: rest
    else x :: overwriteScalars a rest

/-- The first entry with a given assetId in a list of asset fields. -/
def findAsset (v : List Asset) (assetId : JSVal) : Option Asset :=
  v.find? (fun x => decide (x.assetId = assetId))

/-- The store holds the asset of the record `a` with every metric key of `a`
already among its metrics. -/
def Covers (s : Store) (a : Asset) : Prop :=
  ∃ d, findOne s a.assetId = some d ∧ ∀ m ∈ a.metrics, m.key ∈ d.metrics.map Metric.key

/-- The failure condition of `normaliseAsset` as the specification words it:
`assetId` is absent or empty, or one of the four required numeric fields does
not coerce to a finite number, or `metrics` is a sequence with an element that
`normaliseMetric` rejects. -/
def failsBySpec (H : Host) (record : JSVal) : Prop :=
  (record.get "assetId" = .undefined ∨ record.get "assetId" = .null ∨
      record.get "assetId" = .str "") ∨
  (∃ field ∈ ["capacityMWh", "powerRatingMW", "roundTripEfficiency", "availability"],
      (H.Number (record.get field)).isFinite = false) ∨
  (∃ xs, record.get "metrics" = .arr xs ∧
      ∃ m ∈ xs, ∃ e, normaliseMetric H m (record.get "assetId") = .error e)

/-- A raw metric object `\x7b timestamp, stateOfCharge, temperatureC \x7d` with a
numeric timestamp, for concrete evaluations. -/
def sampleMetric (t : Int) (soc temp : ℚ) : JSVal :=
  .obj [("timestamp", .num (.fin t)), ("stateOfCharge", .num (.fin soc)),
        ("temperatureC", .num (.fin temp))]

/-- A raw asset record for concrete evaluations. -/
def sampleRecord (assetId : JSVal) (region : String) (capacityMWh : ℚ)
    (metrics : List JSVal) : JSVal :=
  .obj [("assetId", assetId), ("site", .str "Glenn"), ("region", .str region),
        ("capacityMWh", .num (.fin capacityMWh)), ("powerRatingMW", .num (.fin 5)),
        ("roundTripEfficiency", .num (.fin (mkRat 9 10))),
        ("availability", .num (.fin (mkRat 95 100))), ("metrics", .arr metrics)]

/-- The normalised form of `sampleRecord` under the reference host. -/
def sampleAsset (assetId : JSVal) (region : String) (capacityMWh : ℚ)
    (metrics : List Metric) : Asset :=
  { assetId := assetId, site := .str "Glenn", region := .str region,
    capacityMWh := .fin capacityMWh, powerRatingMW := .fin 5,
    roundTripEfficiency := .fin (mkRat 9 10), availability := .fin (mkRat 95 100),
    status := .str "online", metrics := metrics }

/-- A stored document for concrete evaluations. -/
def sampleDoc (assetId : JSVal) (region : String) (capacityMWh : ℚ) (lastUpdated : Int)
    (metrics : List Metric) : Doc :=
  { assetId := assetId, site := .str "Glenn", region := .str region,
    capacityMWh := .fin capacityMWh, powerRatingMW := .fin 5,
    roundTripEfficiency := .fin (mkRat 9 10), availability := .fin (mkRat 95 100),
    status := .str "online", lastUpdated := lastUpdated, metrics := metrics }

/-- A host for concrete evaluations: `Number` and `new Date` as the language
defines them on numbers, `Date` objects, `undefined`, `null` and booleans.
Strings, arrays and plain objects, which no evaluation below coerces, are taken
as not numeric. -/
def refHost : Host where
  Number
    | .num n => n
    | .null => .fin 0
    | .bool b => if b then .fin 1 else .fin 0
    | .date (some t) => .fin t
    | _ => .nan
  newDate
    | .num (.fin q) =>
      if q.num.natAbs ≤ 8640000000000000 * q.den then some (q.num.tdiv q.den) else none
    | .date t => t
    | .null => some 0
    | .bool b => if b then some 1 else some 0
    | _ => none

/-! ## Aggregation and summary -/

/-- The number operations the aggregation code applies to stored values: `+`,
`*`, `/` on numbers and the rounding `Number(x.toFixed(2))`. They are IEEE-754
double operations in the source and a parameter here. -/
structure Arith where
  /-- The sum `x + y` of two numbers. -/
  add : JSNum → JSNum → JSNum
  /-- The product `x * y` of two numbers. -/
  mul : JSNum → JSNum → JSNum
  /-- The quotient `x / y` of two numbers. -/
  div : JSNum → JSNum → JSNum
  /-- The rounding `Number(x.toFixed(2))`. -/
  toFixed2 : JSNum → JSNum

/-- The expression `v || 0` for a numeric value that may be missing (`none`, read
as `undefined`): a missing value, `0` and `NaN` give `0`. -/
def orZero : Option JSNum → JSNum
  | none => .fin 0
  | some n => if n.truthy then n else .fin 0

/-- A JavaScript `Map`: its entries in insertion order. -/
abbrev JSMap (κ ν : Type) := List (κ × ν)

/-- The call `map.get(k)`; `none` is `undefined`. -/
def mapGet {κ ν : Type} [DecidableEq κ] : JSMap κ ν → κ → Option ν
  | [], _ => none
  | (k', v) :: rest, k => if k' = k then some v else mapGet rest k

/-- The call `map.has(k)`. -/
def mapHas {κ ν : Type} [DecidableEq κ] (m : JSMap κ ν) (k : κ) : Bool :=
  (mapGet m k).isSome

/-- The call `map.set(k, v)`: an existing key keeps its place, a new key goes
last. -/
def mapSet {κ ν : Type} [DecidableEq κ] : JSMap κ ν → κ → ν → JSMap κ ν
  | [], k, v => [(k, v)]
  | (k', v') :: rest, k, v =>
    if k' = k then (k', v) :: rest else (k', v') :: mapSet rest k v

/-- A metric as read from the repository without validation. `timestamp` is the
time value of `new Date(metric.timestamp)` (`none`: the timestamp is missing or
an invalid `Date`); a missing `stateOfCharge` is `none`. -/
structure RawMetric where
  timestamp : Option Int
  stateOfCharge : Option JSNum
  deriving DecidableEq

/-- An asset as read from the repository without validation (the fields the
aggregation and summary code read). A missing numeric field or a missing
`metrics` is `none`. -/
structure RawAsset where
  assetId : JSVal
  site : JSVal
  region : JSVal
  status : JSVal
  capacityMWh : Option JSNum
  availability : Option JSNum
  roundTripEfficiency : Option JSNum
  metrics : Option (List RawMetric)
  deriving DecidableEq

/-- A stored document as the aggregation and summary code read it. -/
def Doc.toRaw (d : Doc) : RawAsset :=
  { assetId := d.assetId, site := d.site, region := d.region, status := d.status,
    capacityMWh := some d.capacityMWh, availability := some d.availability,
    roundTripEfficiency := some d.roundTripEfficiency,
    metrics := some (d.metrics.map
      (fun m => { timestamp := some m.timestamp, stateOfCharge := some m.stateOfCharge })) }

/-- An entry of `capacityByRegion`. -/
structure RegionCapacity where
  region : JSVal
  capacityMWh : JSNum
  deriving DecidableEq

/-- An entry of `statusBreakdown`. -/
structure StatusCount where
  status : JSVal
  count : JSNum
  deriving DecidableEq

/-- A point of `stateOfChargeTrend`; `timestamp` is the ISO string key. -/
structure TrendPoint where
  timestamp : Int
  averageStateOfCharge : JSNum
  deriving DecidableEq

/-- The result of `calculateDashboardMetrics`. -/
structure DashboardMetrics where
  totalAssets : Nat
  totalCapacityMWh : JSNum
  averageAvailability : JSNum
  averageRoundTripEfficiency : JSNum
  capacityByRegion : List RegionCapacity
  statusBreakdown : List StatusCount
  stateOfChargeTrend : List TrendPoint
  deriving DecidableEq

/-- The errors thrown inside `calculateDashboardMetrics`: `toISOString()` on an
invalid `Date` throws a `RangeError`. -/
inductive DashboardError where
  | invalidTimeValue
  deriving DecidableEq

/-- The three maps filled by the loop `assets.forEach`. -/
structure DashboardMaps where
  capacityByRegionMap : JSMap JSVal JSNum
  statusBreakdownMap : JSMap JSVal JSNum
  trendBuckets : JSMap Int (List JSNum)

/-- The body of `(asset.metrics || []).forEach((metric) => ...)`. -/
def trendPush (trendBuckets : JSMap Int (List JSNum)) (metric : RawMetric) :
    Except DashboardError (JSMap Int (List JSNum)) :=
  match metric.timestamp with
  | none => .error .invalidTimeValue
  | some t =>
    let ts := toISOString t
    let buckets := if !mapHas trendBuckets ts then mapSet trendBuckets ts [] else trendBuckets
    .ok (mapSet buckets ts ((mapGet buckets ts).getD [] ++ [orZero metric.stateOfCharge]))

/-- The loop `(asset.metrics || []).forEach(...)`; a throw leaves the loop. -/
def forEachMetric :
    JSMap Int (List JSNum) → List RawMetric → Except DashboardError (JSMap Int (List JSNum))
  | trendBuckets, [] => .ok trendBuckets
  | trendBuckets, metric :: rest =>
    match trendPush trendBuckets metric with
    | .error e => .error e
    | .ok buckets => forEachMetric buckets rest

/-- The loop `assets.forEach((asset) => ...)` of `calculateDashboardMetrics`. -/
def forEachAsset (A : Arith) : DashboardMaps → List RawAsset → Except DashboardError DashboardMaps
  | maps, [] => .ok maps
  | maps, asset :: rest =>
    let capacityByRegionMap := mapSet maps.capacityByRegionMap asset.region
      (A.add (orZero (mapGet maps.capacityByRegionMap asset.region)) (orZero asset.capacityMWh))
    let statusBreakdownMap := mapSet maps.statusBreakdownMap asset.status
      (A.add (orZero (mapGet maps.statusBreakdownMap asset.status)) (.fin 1))
    match forEachMetric maps.trendBuckets (asset.metrics.getD []) with
    | .error e => .error e
    | .ok trendBuckets =>
      forEachAsset A
        { capacityByRegionMap := capacityByRegionMap, statusBreakdownMap := statusBreakdownMap,
          trendBuckets := trendBuckets } rest

/-- The order of the comparator `(a, b) => new Date(a.timestamp) - new Date(b.timestamp)`:
`a` does not come after `b`. -/
def TrendPoint.le (a b : TrendPoint) : Prop := a.timestamp ≤ b.timestamp

instance : DecidableRel TrendPoint.le := fun a b => Int.decLe a.timestamp b.timestamp

/-- The trend point of one bucket. -/
def trendPoint (A : Arith) (entry : Int × List JSNum) : TrendPoint :=
  { timestamp := entry.1
    averageStateOfCharge :=
      if entry.2.length > 0 then
        A.toFixed2 (A.div (entry.2.foldl (fun sum value => A.add sum value) (.fin 0))
          (.fin entry.2.length))
      else .fin 0 }

/-- Source: `calculateDashboardMetrics(assets)`. `Array.prototype.sort` is a
stable sort, modelled by insertion sort. -/
def calculateDashboardMetrics (A : Arith) (assets : List RawAsset) :
    Except DashboardError DashboardMetrics :=
  if assets.length = 0 then
    .ok { totalAssets := 0, totalCapacityMWh := .fin 0, averageAvailability := .fin 0,
          averageRoundTripEfficiency := .fin 0, capacityByRegion := [], statusBreakdown := [],
          stateOfChargeTrend := [] }
  else
    let totalCapacity :=
      assets.foldl (fun sum asset => A.add sum (orZero asset.capacityMWh)) (.fin 0)
    let averageAvailability :=
      A.div (assets.foldl (fun sum asset => A.add sum (orZero asset.availability)) (.fin 0))
        (.fin assets.length)
    let averageEfficiency :=
      A.div (assets.foldl (fun sum asset => A.add sum (orZero asset.roundTripEfficiency)) (.fin 0))
        (.fin assets.length)
    match forEachAsset A
        { capacityByRegionMap := [], statusBreakdownMap := [], trendBuckets := [] } assets with
    | .error e => .error e
    | .ok maps =>
      let capacityByRegion := maps.capacityByRegionMap.map
        (fun entry => ({ region := entry.1, capacityMWh := entry.2 } : RegionCapacity))
      let statusBreakdown := maps.statusBreakdownMap.map
        (fun entry => ({ status := entry.1, count := entry.2 } : StatusCount))
      let stateOfChargeTrend :=
        (maps.trendBuckets.map (trendPoint A)).insertionSort TrendPoint.le
      .ok { totalAssets := assets.length
            totalCapacityMWh := A.toFixed2 totalCapacity
            averageAvailability := A.toFixed2 (A.mul averageAvailability (.fin 100))
            averageRoundTripEfficiency := A.toFixed2 (A.mul averageEfficiency (.fin 100))
            capacityByRegion := capacityByRegion
            statusBreakdown := statusBreakdown
            stateOfChargeTrend := stateOfChargeTrend }

/-- An entry of the result of `fetchTelemetrySummary`. `latestTimestamp` is
`none` for `null`, `some none` for an invalid `Date`; `averageStateOfCharge` is
`none` for `null`. -/
structure Summary where
  assetId : JSVal
  site : JSVal
  region : JSVal
  metricsCount : Nat
  latestTimestamp : Option (Option Int)
  averageStateOfCharge : Option JSNum
  deriving DecidableEq

/-- The comparison `metricTimestamp > latestTimestamp` of two `Date`s: false as
soon as one of them is invalid. -/
def dateGt : Option Int → Option Int → Bool
  | some x, some y => decide (x > y)
  | _, _ => false

/-- The loop `for (const metric of metrics)` of `fetchTelemetrySummary`, on the
state `(latestTimestamp, totalStateOfCharge)`. -/
def summaryLoop (A : Arith) :
    List RawMetric → Option (Option Int) × JSNum → Option (Option Int) × JSNum
  | [], st => st
  | metric :: rest, (latestTimestamp, totalStateOfCharge) =>
    let metricTimestamp := metric.timestamp
    let latest :=
      match latestTimestamp with
      | none => some metricTimestamp
      | some l => if dateGt metricTimestamp l then some metricTimestamp else some l
    summaryLoop A rest (latest, A.add totalStateOfCharge (orZero metric.stateOfCharge))

/-- The callback of `assets.map((asset) => ...)` in `fetchTelemetrySummary`. -/
def summarise (A : Arith) (asset : RawAsset) : Summary :=
  let metrics := asset.metrics.getD []
  let metricsCount := metrics.length
  let st := summaryLoop A metrics (none, .fin 0)
  let averageStateOfCharge :=
    if metricsCount > 0 then some (A.div st.2 (.fin metricsCount)) else none
  { assetId := asset.assetId, site := asset.site, region := asset.region,
    metricsCount := metricsCount, latestTimestamp := st.1,
    averageStateOfCharge := averageStateOfCharge }

/-- Source: `fetchTelemetrySummary(\x7b assetIds \x7d, options)` on the repository
contents `repo`; `Model.find` with the `$in` filter keeps the assets whose
`assetId` is listed. -/
def fetchTelemetrySummary (A : Arith) (assetIds : JSVal) (repo : List RawAsset) :
    List Summary :=
  let assets : List RawAsset :=
    match assetIds with
    | .arr ids => if ids.length > 0 then repo.filter (fun (a : RawAsset) => decide (a.assetId ∈ ids)) else repo
    | _ => repo
  assets.map (summarise A)

/-- The sum of a list of numbers, added from `0` in list order. -/
def sumList (A : Arith) (xs : List JSNum) : JSNum :=
  xs.foldl A.add (.fin 0)

/-- The mean of a list of numbers: their sum divided by their count. -/
def meanOf (A : Arith) (xs : List JSNum) : JSNum :=
  A.div (sumList A xs) (.fin xs.length)

/-- Exact arithmetic on finite values, for concrete evaluations: it agrees with
double arithmetic whenever the exact result is a double. `toFixed2` rounds to
the nearest hundredth, a tie away from zero. Products and quotients with a
non-finite operand, which no evaluation below reaches, are taken as `NaN`. -/
def refArith : Arith where
  add
    | .fin p, .fin q => .fin (mkRat (p.num * q.den + q.num * p.den) (p.den * q.den))
    | .nan, _ => .nan
    | _, .nan => .nan
    | .posInf, .negInf => .nan
    | .negInf, .posInf => .nan
    | .posInf, _ => .posInf
    | _, .posInf => .posInf
    | .negInf, _ => .negInf
    | _, .negInf => .negInf
  mul
    | .fin p, .fin q => .fin (mkRat (p.num * q.num) (p.den * q.den))
    | _, _ => .nan
  div
    | .fin p, .fin q =>
      if q.num = 0 then
        (if p.num = 0 then .nan else if 0 < p.num then .posInf else .negInf)
      else .fin (mkRat (p.num * q.den * q.num.sign) (p.den * q.num.natAbs))
    | _, _ => .nan
  toFixed2
    | .fin p =>
      .fin (mkRat (p.num.sign * ((2 * 100 * p.num.natAbs + p.den) / (2 * p.den))) 100)
    | x => x

/-- Every metric of a list of stored documents, asset by asset. -/
def allMetrics : List Doc → List Metric
  | [] => []
  | d :: rest => d.metrics ++ allMetrics rest

/-- The keys of a `Map` after the keys `l` are set in turn, starting from the
keys `acc`: a key that is not there yet goes last. -/
def keysFold {κ : Type} [DecidableEq κ] : List κ → List κ → List κ
  | acc, [] => acc
  | acc, k :: rest => if k ∈ acc then keysFold acc rest else keysFold (acc ++ [k]) rest

/-- The update of `capacityByRegionMap` for one stored document. -/
def regionStep (A : Arith) (m : JSMap JSVal JSNum) (d : Doc) : JSMap JSVal JSNum :=
  mapSet m d.region (A.add (orZero (mapGet m d.region)) (orZero (some d.capacityMWh)))

/-- The update of `statusBreakdownMap` for one stored document. -/
def statusStep (A : Arith) (m : JSMap JSVal JSNum) (d : Doc) : JSMap JSVal JSNum :=
  mapSet m d.status (A.add (orZero (mapGet m d.status)) (.fin 1))

/-- The update of `trendBuckets` for one stored metric. -/
def trendStep (m : JSMap Int (List JSNum)) (x : Metric) : JSMap Int (List JSNum) :=
  mapSet m x.timestamp ((mapGet m x.timestamp).getD [] ++ [orZero (some x.stateOfCharge)])

/-- The total number of metrics stored across all assets. -/
def totalMetrics (s : Store) : Nat :=
  (s.map (fun d => d.metrics.length)).sum

/-- Source: `Model.find(filter)` in `fetchTelemetrySummary`, on stored documents:
the assets returned by the repository. When `assetIds` is a non-empty array the
filter is `\x7b assetId: \x7b $in: assetIds \x7d \x7d` (the stored assets whose assetId is
listed), otherwise it is empty (every stored asset). -/
def returnedAssets (assetIds : JSVal) (repo : List Doc) : List Doc :=
  match assetIds with
  | .arr ids => if ids.length > 0 then repo.filter (fun d => decide (d.assetId ∈ ids)) else repo
  | _ => repo

/-- The exact sum of the finite capacities of a list of stored documents, as a
rational number. -/
def exactCapacitySum (assets : List Doc) : ℚ :=
  (assets.map (fun a => match a.capacityMWh with
    | .fin q => q
    | _ => 0)).sum


/-! ## Double arithmetic -/

/-- The floor of the base-2 logarithm of `n` (`0` for `n < 2`), by halving at
most `fuel` times. -/
def log2Floor : Nat → Nat → Nat
  | 0, _ => 0
  | fuel + 1, n => if n < 2 then 0 else log2Floor fuel (n / 2) + 1

/-- The quotient `N / D` rounded to the nearest integer, a tie to the even one. -/
def roundHalfEven (N D : Nat) : Nat :=
  if 2 * (N % D) < D then N / D
  else if D < 2 * (N % D) then N / D + 1
  else if (N / D) % 2 = 0 then N / D else N / D + 1

/-- The double nearest to the rational `num / den`: IEEE-754 binary64 rounding
to nearest, a tie to the even significand, with gradual underflow and overflow
to infinity. The sign of a zero is not kept. -/
def roundToDouble (num : Int) (den : Nat) : JSNum :=
  if num.natAbs = 0 ∨ den = 0 then .fin 0
  else
    let e0 : Int := (log2Floor num.natAbs num.natAbs : Int) - (log2Floor den den : Int)
    let e : Int :=
      if 0 ≤ e0 then (if den * 2 ^ e0.toNat ≤ num.natAbs then e0 else e0 - 1)
      else (if den ≤ num.natAbs * 2 ^ (-e0).toNat then e0 else e0 - 1)
    let k : Int := max (e - 52) (-1074)
    let M : Nat := roundHalfEven (num.natAbs * 2 ^ (-k).toNat) (den * 2 ^ k.toNat)
    if 1024 ≤ k + 53 ∧ (M = 2 ^ 53 ∨ 1024 ≤ k + 52) then
      (if 0 < num then .posInf else .negInf)
    else .fin (mkRat (num.sign * ((M * 2 ^ k.toNat : Nat) : Int)) (2 ^ (-k).toNat))

/-- Double arithmetic: every operation returns the double nearest to the exact
result, and `toFixed2` is `Number(x.toFixed(2))` (the nearest hundredth of the
exact value of `x`, a tie to the larger magnitude, read back as a double; a
value of magnitude `1e21` or more is returned as it is). -/
def doubleArith : Arith where
  add
    | .fin p, .fin q => roundToDouble (p.num * q.den + q.num * p.den) (p.den * q.den)
    | .nan, _ => .nan
    | _, .nan => .nan
    | .posInf, .negInf => .nan
    | .negInf, .posInf => .nan
    | .posInf, _ => .posInf
    | _, .posInf => .posInf
    | .negInf, _ => .negInf
    | _, .negInf => .negInf
  mul
    | .fin p, .fin q => roundToDouble (p.num * q.num) (p.den * q.den)
    | .nan, _ => .nan
    | _, .nan => .nan
    | .fin p, .posInf => if p.num = 0 then .nan else if 0 < p.num then .posInf else .negInf
    | .fin p, .negInf => if p.num = 0 then .nan else if 0 < p.num then .negInf else .posInf
    | .posInf, .fin q => if q.num = 0 then .nan else if 0 < q.num then .posInf else .negInf
    | .negInf, .fin q => if q.num = 0 then .nan else if 0 < q.num then .negInf else .posInf
    | .posInf, .posInf => .posInf
    | .negInf, .negInf => .posInf
    | .posInf, .negInf => .negInf
    | .negInf, .posInf => .negInf
  div
    | .fin p, .fin q =>
      if q.num = 0 then
        (if p.num = 0 then .nan else if 0 < p.num then .posInf else .negInf)
      else roundToDouble (p.num * q.den * q.num.sign) (p.den * q.num.natAbs)
    | .nan, _ => .nan
    | _, .nan => .nan
    | .fin _, _ => .fin 0
    | .posInf, .fin q => if 0 ≤ q.num then .posInf else .negInf
    | .negInf, .fin q => if 0 ≤ q.num then .negInf else .posInf
    | _, _ => .nan
  toFixed2
    | .fin p =>
      if 1000000000000000000000 * p.den ≤ p.num.natAbs then .fin p
      else roundToDouble (p.num.sign * ((2 * 100 * p.num.natAbs + p.den) / (2 * p.den) : Nat)) 100
    | x => x

/-- Three stored assets with capacities `1e16`, `1` and `1`. -/
def bigCapacityDocs : List Doc :=
  [{ assetId := .str "a1", site := .str "Glenn", region := .str "X",
     capacityMWh := .fin 10000000000000000, powerRatingMW := .fin 5,
     roundTripEfficiency := .fin 1, availability := .fin 1, status := .str "online",
     lastUpdated := 0, metrics := [] },
   { assetId := .str "a2", site := .str "Glenn", region := .str "X",
     capacityMWh := .fin 1, powerRatingMW := .fin 5,
     roundTripEfficiency := .fin 1, availability := .fin 1, status := .str "online",
     lastUpdated := 0, metrics := [] },
   { assetId := .str "a3", site := .str "Glenn", region := .str "X",
     capacityMWh := .fin 1, powerRatingMW := .fin 5,
     roundTripEfficiency := .fin 1, availability := .fin 1, status := .str "online",
     lastUpdated := 0, metrics := [] }]

/-! ## Lemmas on the repository -/

theorem findOne_assetId {s : Store} {id : JSVal} {d : Doc} (h : findOne s id = some d) :
    d.assetId = id := by
  unfold findOne at h
  have := List.find?_some h
  simpa using this

theorem findOne_mem {s : Store} {id : JSVal} {d : Doc} (h : findOne s id = some d) :
    d ∈ s := by
  unfold findOne at h
  exact List.mem_of_find?_eq_some h

theorem findOne_cons (d : Doc) (s : Store) (id : JSVal) :
    findOne (d :: s) id = if d.assetId = id then some d else findOne s id := by
  unfold findOne
  by_cases h : d.assetId = id <;> simp [List.find?_cons, h]

theorem findOne_eq_none {s : Store} {id : JSVal} :
    findOne s id = none ↔ ∀ d ∈ s, d.assetId ≠ id := by
  unfold findOne
  simp [List.find?_eq_none]

theorem findOne_isSome {s : Store} {id : JSVal} :
    (∃ d, findOne s id = some d) ↔ id ∈ s.map Doc.assetId := by
  constructor
  · rintro ⟨d, h⟩
    exact List.mem_map.2 ⟨d, findOne_mem h, findOne_assetId h⟩
  · intro h
    obtain ⟨d, hd, rfl⟩ := List.mem_map.1 h
    cases hf : findOne s d.assetId with
    | none => exact absurd rfl (findOne_eq_none.1 hf d hd)
    | some e => exact ⟨e, rfl⟩

theorem save_map_assetId (s : Store) (doc : Doc) :
    (save s doc).map Doc.assetId = s.map Doc.assetId := by
  induction s with
  | nil => rfl
  | cons d rest ih =>
    unfold save
    by_cases h : d.assetId = doc.assetId <;> simp [h, ih]

theorem findOne_save_same (s : Store) (doc d : Doc) (h : findOne s doc.assetId = some d) :
    findOne (save s doc) doc.assetId = some doc := by
  induction s with
  | nil => simp [findOne] at h
  | cons e rest ih =>
    rw [findOne_cons] at h
    unfold save
    by_cases he : e.assetId = doc.assetId
    · simp [he, findOne_cons]
    · simp only [he, if_false] at h ⊢
      rw [findOne_cons]
      simp [he, ih h]

theorem findOne_save_ne (s : Store) (doc : Doc) {id : JSVal} (h : doc.assetId ≠ id) :
    findOne (save s doc) id = findOne s id := by
  induction s with
  | nil => rfl
  | cons e rest ih =>
    unfold save
    by_cases he : e.assetId = doc.assetId
    · have : e.assetId ≠ id := by rw [he]; exact h
      simp [he, findOne_cons, h, this]
    · simp only [he, if_false]
      rw [findOne_cons, findOne_cons, ih]

theorem findOne_create (s : Store) (p : Doc) (id : JSVal) :
    findOne (create s p) id =
      match findOne s id with
      | some d => some d
      | none => if p.assetId = id then some p else none := by
  induction s with
  | nil => simp [create, findOne_cons, findOne]
  | cons e rest ih =>
    have : create (e :: rest) p = e :: create rest p := rfl
    rw [this, findOne_cons, findOne_cons]
    by_cases he : e.assetId = id
    · simp [he]
    · simp [he, ih]

/-! ## Lemmas on the merge step -/

theorem mergeLoop_spec (stored : List Metric) :
    ∀ (inc earlier ms : List Metric) (idx : List Int) (n : Nat),
      (∀ k, k ∈ idx ↔ k ∈ stored.map (fun x => toISOString x.timestamp) ∨
          k ∈ earlier.map (fun x => toISOString x.timestamp)) →
      (mergeLoop inc (ms, idx, n)).1 = ms ++ keptBySpec stored earlier inc ∧
      (mergeLoop inc (ms, idx, n)).2.2 = n + (keptBySpec stored earlier inc).length := by
  intro inc
  induction inc with
  | nil => intro earlier ms idx n _; simp [mergeLoop, keptBySpec]
  | cons m rest ih =>
    intro earlier ms idx n hidx
    by_cases hk : toISOString m.timestamp ∈ idx
    · have hk2 : ¬ (toISOString m.timestamp ∉ stored.map (fun x => toISOString x.timestamp) ∧
          toISOString m.timestamp ∉ earlier.map (fun x => toISOString x.timestamp)) := by
        have := (hidx _).1 hk
        tauto
      have hidx2 : ∀ k, k ∈ idx ↔ k ∈ stored.map (fun x => toISOString x.timestamp) ∨
          k ∈ (earlier ++ [m]).map (fun x => toISOString x.timestamp) := by
        intro k
        rw [hidx k]
        simp only [List.map_append, List.mem_append, List.map_cons, List.map_nil,
          List.mem_singleton]
        constructor
        · rintro (h | h)
          · exact Or.inl h
          · exact Or.inr (Or.inl h)
        · rintro (h | h | h)
          · exact Or.inl h
          · exact Or.inr h
          · subst h; exact (hidx _).1 hk
      have := ih (earlier ++ [m]) ms idx n hidx2
      have e1 : keptBySpec stored earlier (m :: rest) =
          keptBySpec stored (earlier ++ [m]) rest := by
        rw [keptBySpec]; exact if_neg hk2
      have e2 : mergeLoop (m :: rest) (ms, idx, n) = mergeLoop rest (ms, idx, n) := by
        rw [mergeLoop]; exact if_pos hk
      rw [e1, e2]
      exact this
    · have hk2 : toISOString m.timestamp ∉ stored.map (fun x => toISOString x.timestamp) ∧
          toISOString m.timestamp ∉ earlier.map (fun x => toISOString x.timestamp) := by
        have := (hidx (toISOString m.timestamp)).not.1 hk
        tauto
      have hidx2 : ∀ k, k ∈ toISOString m.timestamp :: idx ↔
          k ∈ stored.map (fun x => toISOString x.timestamp) ∨
          k ∈ (earlier ++ [m]).map (fun x => toISOString x.timestamp) := by
        intro k
        simp only [List.mem_cons, hidx k, List.map_append, List.mem_append, List.map_cons,
          List.map_nil, List.mem_singleton, List.not_mem_nil, or_false]
        tauto
      have := ih (earlier ++ [m]) (ms ++ [m]) (toISOString m.timestamp :: idx) (n + 1) hidx2
      have e1 : keptBySpec stored earlier (m :: rest) =
          m :: keptBySpec stored (earlier ++ [m]) rest := by
        rw [keptBySpec]; exact if_pos hk2
      have e2 : mergeLoop (m :: rest) (ms, idx, n) =
          mergeLoop rest (ms ++ [m], toISOString m.timestamp :: idx, n + 1) := by
        rw [mergeLoop]; exact if_neg hk
      rw [e1, e2, this.1, this.2]
      refine ⟨by simp [List.append_assoc], ?_⟩
      rw [List.length_cons]
      omega

theorem ingestAsset_found {s : Store} {a : Asset} {d : Doc} (now : Int) (c : IngestResult)
    (h : findOne s a.assetId = some d) :
    ingestAsset now s c a =
      (save s (d.mergeWith a now),
        { assetsProcessed := c.assetsProcessed + 1, newAssets := c.newAssets,
          metricsInserted := c.metricsInserted + (keptBySpec d.metrics [] a.metrics).length }) := by
  have hs := mergeLoop_spec d.metrics a.metrics [] d.metrics
    (d.metrics.map (fun x => toISOString x.timestamp)) c.metricsInserted (by simp)
  unfold ingestAsset
  simp only [h]
  rw [hs.1, hs.2]
  rfl

theorem ingestAsset_new {s : Store} {a : Asset} (now : Int) (c : IngestResult)
    (h : findOne s a.assetId = none) :
    ingestAsset now s c a =
      (create s (Doc.ofAsset a now),
        { assetsProcessed := c.assetsProcessed + 1, newAssets := c.newAssets + 1,
          metricsInserted := c.metricsInserted + a.metrics.length }) := by
  unfold ingestAsset
  simp only [h]
  rfl

theorem keptBySpec_length (stored : List Metric) :
    ∀ (inc earlier : List Metric),
      (keptBySpec stored earlier inc).length =
        ((inc.map Metric.key).toFinset \
          ((stored.map Metric.key).toFinset ∪ (earlier.map Metric.key).toFinset)).card := by
  intro inc
  induction inc with
  | nil => intro earlier; simp [keptBySpec]
  | cons m rest ih =>
    intro earlier
    have hkey : ∀ l : List Metric, l.map (fun x => toISOString x.timestamp) = l.map Metric.key :=
      fun _ => rfl
    have hE : ((earlier ++ [m]).map Metric.key).toFinset =
        insert m.key (earlier.map Metric.key).toFinset := by
      ext k; simp [or_comm]
    unfold keptBySpec
    simp only [hkey]
    have hmk : toISOString m.timestamp = m.key := rfl
    rw [hmk]
    split_ifs with hc
    · rw [List.length_cons, ih, hE]
      have hnot : m.key ∉ (stored.map Metric.key).toFinset ∪ (earlier.map Metric.key).toFinset := by
        simp only [Finset.mem_union, List.mem_toFinset]; tauto
      have hset : ((m :: rest).map Metric.key).toFinset \
            ((stored.map Metric.key).toFinset ∪ (earlier.map Metric.key).toFinset) =
          insert m.key ((rest.map Metric.key).toFinset \
            ((stored.map Metric.key).toFinset ∪
              insert m.key (earlier.map Metric.key).toFinset)) := by
        ext k
        simp only [List.map_cons, List.toFinset_cons, Finset.mem_sdiff, Finset.mem_insert,
          Finset.mem_union, List.mem_toFinset]
        constructor
        · rintro ⟨h1 | h1, h2⟩
          · exact Or.inl h1
          · by_cases hk : k = m.key
            · exact Or.inl hk
            · exact Or.inr ⟨h1, by tauto⟩
        · rintro (h1 | ⟨h1, h2⟩)
          · subst h1
            refine ⟨Or.inl rfl, ?_⟩
            simpa only [Finset.mem_union, List.mem_toFinset] using hnot
          · exact ⟨Or.inr h1, by tauto⟩
      rw [hset, Finset.card_insert_of_not_mem]
      simp
    · rw [ih, hE]
      have hin : m.key ∈ (stored.map Metric.key).toFinset ∪ (earlier.map Metric.key).toFinset := by
        simp only [Finset.mem_union, List.mem_toFinset]; tauto
      congr 1
      ext k
      simp only [List.map_cons, List.toFinset_cons, Finset.mem_sdiff, Finset.mem_insert,
        Finset.mem_union, List.mem_toFinset] at hin ⊢
      constructor
      · rintro ⟨h1, h2⟩
        exact ⟨Or.inr h1, by tauto⟩
      · rintro ⟨h1 | h1, h2⟩
        · subst h1; tauto
        · refine ⟨h1, ?_⟩
          rintro (h3 | h3 | h3)
          · exact h2 (Or.inl h3)
          · subst h3; exact h2 hin
          · exact h2 (Or.inr h3)

/-! ## Lemmas on the ingestion loop -/

theorem normaliseAll_of_forall (H : Host) :
    ∀ rs : List JSVal, (∀ r ∈ rs, ∃ a, normaliseAsset H r = .ok a) →
      ∃ as, normaliseAll H rs = .ok as ∧
        List.Forall₂ (fun r a => normaliseAsset H r = .ok a) rs as := by
  intro rs
  induction rs with
  | nil => intro _; exact ⟨[], rfl, List.Forall₂.nil⟩
  | cons r rest ih =>
    intro h
    obtain ⟨a, ha⟩ := h r (List.mem_cons_self _ _)
    obtain ⟨as, has, hf⟩ := ih (fun x hx => h x (List.mem_cons_of_mem _ hx))
    refine ⟨a :: as, ?_, List.Forall₂.cons ha hf⟩
    simp [normaliseAll, ha, has]

theorem ingestLoop_of_normaliseAll (H : Host) (clock : Nat → Int) :
    ∀ (rs : List JSVal) (as : List Asset) (k : Nat) (s : Store) (c : IngestResult),
      normaliseAll H rs = .ok as →
      ingestLoop H clock k s c rs =
        ((ingestAssets clock k s c as).1, .ok (ingestAssets clock k s c as).2) := by
  intro rs
  induction rs with
  | nil =>
    intro as k s c h
    simp only [normaliseAll, Except.ok.injEq] at h
    subst h
    rfl
  | cons r rest ih =>
    intro as k s c h
    unfold normaliseAll at h
    cases hr : normaliseAsset H r with
    | error e => simp [hr] at h
    | ok a =>
      simp only [hr] at h
      cases hrest : normaliseAll H rest with
      | error e => simp [hrest] at h
      | ok as1 =>
        simp only [hrest, Except.ok.injEq] at h
        subst h
        simp only [ingestLoop, hr, ingestAssets]
        exact ih as1 (k + 1) _ _ hrest

theorem ingestLoop_fails (H : Host) (clock : Nat → Int) :
    ∀ (pre : List JSVal) (as : List Asset) (r : JSVal) (post : List JSVal) (e : IngestError)
      (k : Nat) (s : Store) (c : IngestResult),
      normaliseAll H pre = .ok as → normaliseAsset H r = .error e →
      ingestLoop H clock k s c (pre ++ r :: post) =
        ((ingestAssets clock k s c as).1, .error e) := by
  intro pre
  induction pre with
  | nil =>
    intro as r post e k s c h hr
    simp only [normaliseAll, Except.ok.injEq] at h
    subst h
    simp [ingestLoop, hr, ingestAssets]
  | cons x rest ih =>
    intro as r post e k s c h hr
    unfold normaliseAll at h
    cases hx : normaliseAsset H x with
    | error e1 => simp [hx] at h
    | ok a =>
      simp only [hx] at h
      cases hrest : normaliseAll H rest with
      | error e1 => simp [hrest] at h
      | ok as1 =>
        simp only [hrest, Except.ok.injEq] at h
        subst h
        simp only [List.cons_append, ingestLoop, hx, ingestAssets]
        exact ih as1 r post e (k + 1) _ _ hrest hr

theorem ingestAssets_append (clock : Nat → Int) :
    ∀ (as bs : List Asset) (k : Nat) (s : Store) (c : IngestResult),
      ingestAssets clock k s c (as ++ bs) =
        ingestAssets clock (k + as.length) (ingestAssets clock k s c as).1
          (ingestAssets clock k s c as).2 bs := by
  intro as
  induction as with
  | nil => intro bs k s c; simp [ingestAssets]
  | cons a rest ih =>
    intro bs k s c
    have e : k + (rest.length + 1) = (k + 1) + rest.length := by omega
    simp only [List.cons_append, ingestAssets, List.length_cons]
    rw [e]
    exact ih bs (k + 1) _ _

theorem normaliseAsset_assetId {H : Host} {r : JSVal} {a : Asset}
    (h : normaliseAsset H r = .ok a) : a.assetId = r.get "assetId" := by
  unfold normaliseAsset at h
  simp only at h
  split_ifs at h <;>
  · split at h
    · cases h
    · split at h
      · cases h
      · injection h with h
        rw [← h]

/-- After a record is processed its asset is stored with the record's scalar
fields, the clock reading, and the merged metrics. -/
theorem findOne_ingestAsset_self (now : Int) (s : Store) (c : IngestResult) (a : Asset) :
    ∃ d, findOne (ingestAsset now s c a).1 a.assetId = some d ∧ d.scalarsMatch a ∧
      d.lastUpdated = now ∧
      d.metrics = match findOne s a.assetId with
        | some e => e.metrics ++ keptBySpec e.metrics [] a.metrics
        | none => a.metrics := by
  cases h : findOne s a.assetId with
  | some e =>
    rw [ingestAsset_found now c h]
    have hid : (e.mergeWith a now).assetId = a.assetId := by
      show e.assetId = a.assetId
      exact findOne_assetId h
    refine ⟨e.mergeWith a now, ?_, ?_, rfl, rfl⟩
    · have := findOne_save_same s (e.mergeWith a now) e (by rw [hid]; exact h)
      rw [hid] at this
      exact this
    · simp [Doc.scalarsMatch, Doc.mergeWith]
  | none =>
    rw [ingestAsset_new now c h]
    refine ⟨Doc.ofAsset a now, ?_, ?_, rfl, rfl⟩
    · rw [findOne_create, h]
      simp [Doc.ofAsset]
    · simp [Doc.scalarsMatch, Doc.ofAsset]

/-- Processing a record leaves the lookup of every other identifier unchanged. -/
theorem findOne_ingestAsset_ne (now : Int) (s : Store) (c : IngestResult) (a : Asset)
    {id : JSVal} (hne : a.assetId ≠ id) :
    findOne (ingestAsset now s c a).1 id = findOne s id := by
  cases h : findOne s a.assetId with
  | some e =>
    rw [ingestAsset_found now c h]
    apply findOne_save_ne
    show e.assetId ≠ id
    rw [findOne_assetId h]
    exact hne
  | none =>
    rw [ingestAsset_new now c h]
    rw [findOne_create]
    cases findOne s id with
    | some d => rfl
    | none => simp [Doc.ofAsset, hne]

theorem findOne_ingestAssets_ne (clock : Nat → Int) {id : JSVal} :
    ∀ (as : List Asset) (k : Nat) (s : Store) (c : IngestResult),
      (∀ a ∈ as, a.assetId ≠ id) →
      findOne (ingestAssets clock k s c as).1 id = findOne s id := by
  intro as
  induction as with
  | nil => intro k s c _; rfl
  | cons a rest ih =>
    intro k s c h
    simp only [ingestAssets]
    rw [ih _ _ _ (fun b hb => h b (List.mem_cons_of_mem _ hb))]
    exact findOne_ingestAsset_ne _ _ _ _ (h a (List.mem_cons_self _ _))

/-- Last write wins on the normalised batch. -/
theorem findOne_ingestAssets_last (clock : Nat → Int) (pre : List Asset) (a : Asset)
    (post : List Asset) (k : Nat) (s : Store) (c : IngestResult)
    (hpost : ∀ b ∈ post, b.assetId ≠ a.assetId) :
    ∃ d, findOne (ingestAssets clock k s c (pre ++ a :: post)).1 a.assetId = some d ∧
      d.scalarsMatch a := by
  rw [ingestAssets_append]
  simp only [ingestAssets]
  rw [findOne_ingestAssets_ne clock post _ _ _ hpost]
  obtain ⟨d, hd, hm, _⟩ := findOne_ingestAsset_self (clock (k + pre.length))
    (ingestAssets clock k s c pre).1 (ingestAssets clock k s c pre).2 a
  exact ⟨d, hd, hm⟩

theorem normaliseAll_cons_ok {H : Host} {x : JSVal} {rest : List JSVal} {a : Asset}
    {as : List Asset} (hx : normaliseAsset H x = .ok a) (hrest : normaliseAll H rest = .ok as) :
    normaliseAll H (x :: rest) = .ok (a :: as) := by
  simp [normaliseAll, hx, hrest]

theorem normaliseAll_append (H : Host) :
    ∀ (pre post : List JSVal) (as bs : List Asset),
      normaliseAll H pre = .ok as → normaliseAll H post = .ok bs →
      normaliseAll H (pre ++ post) = .ok (as ++ bs) := by
  intro pre
  induction pre with
  | nil =>
    intro post as bs h1 h2
    simp only [normaliseAll, Except.ok.injEq] at h1
    subst h1
    simpa using h2
  | cons x rest ih =>
    intro post as bs h1 h2
    unfold normaliseAll at h1
    cases hx : normaliseAsset H x with
    | error e => simp [hx] at h1
    | ok a =>
      simp only [hx] at h1
      cases hrest : normaliseAll H rest with
      | error e => simp [hrest] at h1
      | ok as1 =>
        simp only [hrest, Except.ok.injEq] at h1
        subst h1
        have := ih post as1 bs hrest h2
        rw [List.cons_append, List.cons_append]
        exact normaliseAll_cons_ok hx this

theorem normaliseAll_mem (H : Host) :
    ∀ (rs : List JSVal) (as : List Asset), normaliseAll H rs = .ok as →
      ∀ a ∈ as, ∃ r ∈ rs, normaliseAsset H r = .ok a := by
  intro rs as h
  obtain ⟨as1, h1, hf⟩ := normaliseAll_of_forall H rs (by
    induction rs generalizing as with
    | nil => intro r hr; cases hr
    | cons x rest ih =>
      intro r hr
      unfold normaliseAll at h
      cases hx : normaliseAsset H x with
      | error e => simp [hx] at h
      | ok a =>
        simp only [hx] at h
        cases hrest : normaliseAll H rest with
        | error e => simp [hrest] at h
        | ok as2 =>
          rcases List.mem_cons.1 hr with rfl | hr
          · exact ⟨a, hx⟩
          · exact ih as2 hrest r hr)
  rw [h] at h1
  injection h1 with h1
  subst h1
  clear h
  induction hf with
  | nil => intro a ha; cases ha
  | cons hra _ ih =>
    intro a ha
    rcases List.mem_cons.1 ha with rfl | ha
    · exact ⟨_, List.mem_cons_self _ _, hra⟩
    · obtain ⟨r, hr, hh⟩ := ih a ha
      exact ⟨r, List.mem_cons_of_mem _ hr, hh⟩

/-- A run on records that all normalise is the loop on their normalised forms. -/
theorem ingestTelemetry_of_normaliseAll (H : Host) (clock : Nat → Int) (s : Store)
    (rs : List JSVal) (as : List Asset) (h : normaliseAll H rs = .ok as) :
    ingestTelemetry H clock s (.arr rs) =
      ((ingestAssets clock 0 s zeroResult as).1, .ok (ingestAssets clock 0 s zeroResult as).2) := by
  unfold ingestTelemetry
  exact ingestLoop_of_normaliseAll H clock rs as 0 s zeroResult h

theorem ingestAsset_map_assetId (now : Int) (s : Store) (c : IngestResult) (a : Asset) :
    (ingestAsset now s c a).1.map Doc.assetId =
      if a.assetId ∈ s.map Doc.assetId then s.map Doc.assetId
      else s.map Doc.assetId ++ [a.assetId] := by
  cases h : findOne s a.assetId with
  | some e =>
    have hin : a.assetId ∈ s.map Doc.assetId := findOne_isSome.1 ⟨e, h⟩
    rw [ingestAsset_found now c h, if_pos hin]
    exact save_map_assetId _ _
  | none =>
    have hnot : a.assetId ∉ s.map Doc.assetId := by
      intro hin
      obtain ⟨d, hd⟩ := findOne_isSome.2 hin
      rw [h] at hd
      cases hd
    rw [ingestAsset_new now c h, if_neg hnot]
    simp [create, Doc.ofAsset]

theorem ingestAsset_counts (now : Int) (s : Store) (c : IngestResult) (a : Asset) :
    (ingestAsset now s c a).2.assetsProcessed = c.assetsProcessed + 1 ∧
    (ingestAsset now s c a).2.newAssets =
      c.newAssets + (if a.assetId ∈ s.map Doc.assetId then 0 else 1) := by
  cases h : findOne s a.assetId with
  | some e =>
    have hin : a.assetId ∈ s.map Doc.assetId := findOne_isSome.1 ⟨e, h⟩
    rw [ingestAsset_found now c h, if_pos hin]
    exact ⟨rfl, rfl⟩
  | none =>
    have hnot : a.assetId ∉ s.map Doc.assetId := by
      intro hin
      obtain ⟨d, hd⟩ := findOne_isSome.2 hin
      rw [h] at hd
      cases hd
    rw [ingestAsset_new now c h, if_neg hnot]
    exact ⟨rfl, rfl⟩

theorem ingestAssets_counts (clock : Nat → Int) :
    ∀ (as : List Asset) (k : Nat) (s : Store) (c : IngestResult),
      (ingestAssets clock k s c as).2.assetsProcessed = c.assetsProcessed + as.length ∧
      (ingestAssets clock k s c as).2.newAssets =
        c.newAssets +
          ((as.map Asset.assetId).toFinset.filter (fun id => id ∉ s.map Doc.assetId)).card := by
  intro as
  induction as with
  | nil => intro k s c; simp [ingestAssets]
  | cons a rest ih =>
    intro k s c
    simp only [ingestAssets]
    obtain ⟨h1, h2⟩ := ih (k + 1) (ingestAsset (clock k) s c a).1 (ingestAsset (clock k) s c a).2
    obtain ⟨g1, g2⟩ := ingestAsset_counts (clock k) s c a
    rw [h1, h2, g1, g2, ingestAsset_map_assetId]
    refine ⟨by simp only [List.length_cons]; omega, ?_⟩
    by_cases hin : a.assetId ∈ s.map Doc.assetId
    · simp only [if_pos hin, Nat.add_zero]
      congr 2
      ext id
      simp only [List.map_cons, List.toFinset_cons, Finset.mem_filter, Finset.mem_insert,
        List.mem_toFinset]
      constructor
      · rintro ⟨h3, h4⟩; exact ⟨Or.inr h3, h4⟩
      · rintro ⟨h3 | h3, h4⟩
        · subst h3; exact absurd hin h4
        · exact ⟨h3, h4⟩
    · simp only [if_neg hin]
      have hset : ((a :: rest).map Asset.assetId).toFinset.filter
            (fun id => id ∉ s.map Doc.assetId) =
          insert a.assetId ((rest.map Asset.assetId).toFinset.filter
            (fun id => id ∉ s.map Doc.assetId ++ [a.assetId])) := by
        ext id
        simp only [List.map_cons, List.toFinset_cons, Finset.mem_filter, Finset.mem_insert,
          List.mem_toFinset, List.mem_append, List.mem_singleton, not_or]
        constructor
        · rintro ⟨h3 | h3, h4⟩
          · exact Or.inl h3
          · by_cases hid : id = a.assetId
            · exact Or.inl hid
            · exact Or.inr ⟨h3, h4, hid⟩
        · rintro (h3 | ⟨h3, h4, _⟩)
          · subst h3; exact ⟨Or.inl rfl, hin⟩
          · exact ⟨Or.inr h3, h4⟩
      rw [hset, Finset.card_insert_of_not_mem]
      · omega
      · simp

theorem normaliseAll_map_assetId (H : Host) :
    ∀ (rs : List JSVal) (as : List Asset), normaliseAll H rs = .ok as →
      as.map Asset.assetId = rs.map (fun r => r.get "assetId") := by
  intro rs
  induction rs with
  | nil =>
    intro as h
    simp only [normaliseAll, Except.ok.injEq] at h
    subst h
    rfl
  | cons x rest ih =>
    intro as h
    unfold normaliseAll at h
    cases hx : normaliseAsset H x with
    | error e => simp [hx] at h
    | ok a =>
      simp only [hx] at h
      cases hrest : normaliseAll H rest with
      | error e => simp [hrest] at h
      | ok as1 =>
        simp only [hrest, Except.ok.injEq] at h
        subst h
        simp [ih as1 hrest, normaliseAsset_assetId hx]

theorem save_getElem? (doc : Doc) :
    ∀ (s : Store) (i : Nat) (d : Doc), s[i]? = some d →
      ∃ d', (save s doc)[i]? = some d' ∧ d'.assetId = d.assetId ∧
        (d.assetId ≠ doc.assetId → d' = d) := by
  intro s
  induction s with
  | nil => intro i d h; simp at h
  | cons e rest ih =>
    intro i d h
    unfold save
    by_cases he : e.assetId = doc.assetId
    · simp only [he, if_true]
      cases i with
      | zero =>
        simp only [List.getElem?_cons_zero, Option.some.injEq] at h
        subst h
        exact ⟨doc, by simp, he.symm, fun hne => absurd he hne⟩
      | succ j =>
        simp only [List.getElem?_cons_succ] at h
        exact ⟨d, by simpa using h, rfl, fun _ => rfl⟩
    · simp only [he, if_false]
      cases i with
      | zero =>
        simp only [List.getElem?_cons_zero, Option.some.injEq] at h
        subst h
        exact ⟨e, by simp, rfl, fun _ => rfl⟩
      | succ j =>
        simp only [List.getElem?_cons_succ] at h
        obtain ⟨d', h1, h2, h3⟩ := ih j d h
        exact ⟨d', by simpa using h1, h2, h3⟩

theorem ingestAsset_getElem? (now : Int) (s : Store) (c : IngestResult) (a : Asset)
    (i : Nat) (d : Doc) (h : s[i]? = some d) :
    ∃ d', (ingestAsset now s c a).1[i]? = some d' ∧ d'.assetId = d.assetId ∧
      (d.assetId ≠ a.assetId → d' = d) := by
  cases hf : findOne s a.assetId with
  | some e =>
    rw [ingestAsset_found now c hf]
    have hid : (e.mergeWith a now).assetId = a.assetId := by
      show e.assetId = a.assetId
      exact findOne_assetId hf
    obtain ⟨d', h1, h2, h3⟩ := save_getElem? (e.mergeWith a now) s i d h
    exact ⟨d', h1, h2, fun hne => h3 (by rw [hid]; exact hne)⟩
  | none =>
    rw [ingestAsset_new now c hf]
    refine ⟨d, ?_, rfl, fun _ => rfl⟩
    have hi : i < s.length := by
      by_contra hc
      rw [List.getElem?_eq_none (by omega)] at h
      cases h
    unfold create
    rw [List.getElem?_append_left hi]
    exact h

theorem ingestLoop_getElem? (H : Host) (clock : Nat → Int) :
    ∀ (rs : List JSVal) (k : Nat) (s : Store) (c : IngestResult) (i : Nat) (d : Doc),
      s[i]? = some d →
      ∃ d', (ingestLoop H clock k s c rs).1[i]? = some d' ∧ d'.assetId = d.assetId ∧
        ((∀ r ∈ rs, r.get "assetId" ≠ d.assetId) → d' = d) := by
  intro rs
  induction rs with
  | nil => intro k s c i d h; exact ⟨d, h, rfl, fun _ => rfl⟩
  | cons r rest ih =>
    intro k s c i d h
    unfold ingestLoop
    cases hr : normaliseAsset H r with
    | error e => exact ⟨d, h, rfl, fun _ => rfl⟩
    | ok a =>
      simp only
      obtain ⟨d1, h1, h2, h3⟩ := ingestAsset_getElem? (clock k) s c a i d h
      obtain ⟨d2, g1, g2, g3⟩ := ih (k + 1) (ingestAsset (clock k) s c a).1
        (ingestAsset (clock k) s c a).2 i d1 h1
      refine ⟨d2, g1, by rw [g2, h2], ?_⟩
      intro hall
      have ha : d.assetId ≠ a.assetId := by
        rw [normaliseAsset_assetId hr]
        exact fun hc => hall r (List.mem_cons_self _ _) hc.symm
      have hd1 : d1 = d := h3 ha
      subst hd1
      exact g3 (fun x hx => hall x (List.mem_cons_of_mem _ hx))

/-! ## Lemmas on re-ingestion -/

theorem keptBySpec_eq_nil (stored : List Metric) :
    ∀ (inc earlier : List Metric),
      (∀ m ∈ inc, m.key ∈ stored.map Metric.key) → keptBySpec stored earlier inc = [] := by
  intro inc
  induction inc with
  | nil => intro _ _; rfl
  | cons m rest ih =>
    intro earlier h
    have hm : m.key ∈ stored.map Metric.key := h m (List.mem_cons_self _ _)
    rw [keptBySpec, if_neg (fun hc => hc.1 hm)]
    exact ih _ (fun x hx => h x (List.mem_cons_of_mem _ hx))

theorem keptBySpec_covers (stored : List Metric) :
    ∀ (inc earlier : List Metric), ∀ m ∈ inc,
      m.key ∈ stored.map Metric.key ∨ m.key ∈ earlier.map Metric.key ∨
        m.key ∈ (keptBySpec stored earlier inc).map Metric.key := by
  intro inc
  induction inc with
  | nil => intro _ m hm; cases hm
  | cons x rest ih =>
    intro earlier m hm
    have hx : x.key ∈ stored.map Metric.key ∨ x.key ∈ earlier.map Metric.key ∨
        x.key ∈ (keptBySpec stored earlier (x :: rest)).map Metric.key := by
      by_cases hc : toISOString x.timestamp ∉ stored.map (fun y => toISOString y.timestamp) ∧
          toISOString x.timestamp ∉ earlier.map (fun y => toISOString y.timestamp)
      · rw [keptBySpec, if_pos hc]
        exact Or.inr (Or.inr (by simp))
      · have hc2 : x.key ∈ stored.map Metric.key ∨ x.key ∈ earlier.map Metric.key := by
          by_contra hn
          exact hc ⟨fun h1 => hn (Or.inl h1), fun h2 => hn (Or.inr h2)⟩
        rcases hc2 with h1 | h2
        · exact Or.inl h1
        · exact Or.inr (Or.inl h2)
    rcases List.mem_cons.1 hm with rfl | hm
    · exact hx
    · rcases ih (earlier ++ [x]) m hm with h1 | h2 | h3
      · exact Or.inl h1
      · simp only [List.map_append, List.mem_append, List.map_cons, List.map_nil,
          List.mem_singleton] at h2
        rcases h2 with h2 | h2
        · exact Or.inr (Or.inl h2)
        · rw [h2]; exact hx
      · refine Or.inr (Or.inr ?_)
        rw [keptBySpec]
        split_ifs
        · exact List.mem_map.2 (by
            obtain ⟨y, hy, hyk⟩ := List.mem_map.1 h3
            exact ⟨y, List.mem_cons_of_mem _ hy, hyk⟩)
        · exact h3

theorem findAsset_map (s : Store) (id : JSVal) :
    findAsset (s.map Doc.toAsset) id = (findOne s id).map Doc.toAsset := by
  induction s with
  | nil => rfl
  | cons e rest ih =>
    rw [findOne_cons]
    unfold findAsset at ih ⊢
    rw [List.map_cons, List.find?_cons]
    by_cases he : e.assetId = id
    · have : decide (e.toAsset.assetId = id) = true := by simpa [Doc.toAsset] using he
      simp [this, he]
    · have : decide (e.toAsset.assetId = id) = false := by simpa [Doc.toAsset] using he
      simp only [this, he, if_false]
      exact ih

theorem findAsset_cons (x : Asset) (v : List Asset) (id : JSVal) :
    findAsset (x :: v) id = if x.assetId = id then some x else findAsset v id := by
  unfold findAsset
  by_cases h : x.assetId = id <;> simp [List.find?_cons, h]

theorem save_map_toAsset (a : Asset) (now : Int) :
    ∀ (s : Store) (d : Doc), findOne s a.assetId = some d →
      (∀ m ∈ a.metrics, m.key ∈ d.metrics.map Metric.key) →
      (save s (d.mergeWith a now)).map Doc.toAsset = overwriteScalars a (s.map Doc.toAsset) := by
  intro s
  induction s with
  | nil => intro d h _; simp [findOne] at h
  | cons e rest ih =>
    intro d h hcov
    have hid : d.assetId = a.assetId := findOne_assetId h
    rw [findOne_cons] at h
    by_cases he : e.assetId = a.assetId
    · rw [if_pos he] at h
      injection h with h
      subst h
      have hk := keptBySpec_eq_nil e.metrics a.metrics [] hcov
      have h1 : save (e :: rest) (e.mergeWith a now) = e.mergeWith a now :: rest := by
        rw [save]; exact if_pos rfl
      have h2 : overwriteScalars a ((e :: rest).map Doc.toAsset) =
          { a with metrics := e.metrics } :: rest.map Doc.toAsset := by
        rw [List.map_cons, overwriteScalars]; exact if_pos he
      rw [h1, h2, List.map_cons]
      congr 1
      simp [Doc.toAsset, Doc.mergeWith, hk, he]
    · rw [if_neg he] at h
      have h1 : save (e :: rest) (d.mergeWith a now) = e :: save rest (d.mergeWith a now) := by
        rw [save]
        exact if_neg (by
          show ¬ e.assetId = d.assetId
          rw [hid]; exact he)
      have h2 : overwriteScalars a ((e :: rest).map Doc.toAsset) =
          e.toAsset :: overwriteScalars a (rest.map Doc.toAsset) := by
        rw [List.map_cons, overwriteScalars]; exact if_neg he
      rw [h1, h2, List.map_cons, ih d h hcov]

theorem findAsset_overwriteScalars_metrics (b : Asset) (id : JSVal) :
    ∀ v : List Asset, (findAsset (overwriteScalars b v) id).map Asset.metrics =
      (findAsset v id).map Asset.metrics := by
  intro v
  induction v with
  | nil => rfl
  | cons x rest ih =>
    rw [overwriteScalars]
    by_cases hb : x.assetId = b.assetId
    · rw [if_pos hb, findAsset_cons, findAsset_cons]
      have : ({ b with metrics := x.metrics } : Asset).assetId = x.assetId := hb.symm
      rw [this]
      by_cases hx : x.assetId = id <;> simp [hx]
    · rw [if_neg hb, findAsset_cons, findAsset_cons]
      by_cases hx : x.assetId = id
      · simp [hx]
      · simp only [hx, if_false]; exact ih

theorem overwriteScalars_comm (a b : Asset) (hne : a.assetId ≠ b.assetId) :
    ∀ v : List Asset, overwriteScalars a (overwriteScalars b v) =
      overwriteScalars b (overwriteScalars a v) := by
  intro v
  induction v with
  | nil => rfl
  | cons x rest ih =>
    by_cases ha : x.assetId = a.assetId
    · have hb : ¬ x.assetId = b.assetId := fun h => hne (ha.symm.trans h)
      have hb2 : ¬ ({ a with metrics := x.metrics } : Asset).assetId = b.assetId := hne
      simp only [overwriteScalars, ha, hb, hb2, if_true, if_false]
    · by_cases hb : x.assetId = b.assetId
      · have ha2 : ¬ ({ b with metrics := x.metrics } : Asset).assetId = a.assetId :=
          fun h => hne h.symm
        simp only [overwriteScalars, ha, hb, ha2, if_true, if_false]
      · simp only [overwriteScalars, ha, hb, if_false, ih]

theorem overwriteScalars_absorb (a b : Asset) (heq : a.assetId = b.assetId) :
    ∀ v : List Asset, overwriteScalars b (overwriteScalars a v) = overwriteScalars b v := by
  intro v
  induction v with
  | nil => rfl
  | cons x rest ih =>
    by_cases ha : x.assetId = a.assetId
    · have hb : x.assetId = b.assetId := ha.trans heq
      rw [overwriteScalars, if_pos ha, overwriteScalars, if_pos heq, overwriteScalars, if_pos hb]
    · have hb : ¬ x.assetId = b.assetId := fun h => ha (h.trans heq.symm)
      simp only [overwriteScalars, ha, hb, if_false, ih]

theorem overwriteScalars_fixed (a : Asset) :
    ∀ (v : List Asset) (x : Asset), findAsset v a.assetId = some x →
      ({ a with metrics := x.metrics } : Asset) = x → overwriteScalars a v = v := by
  intro v
  induction v with
  | nil => intro x h _; simp [findAsset] at h
  | cons y rest ih =>
    intro x h hx
    rw [findAsset_cons] at h
    by_cases hy : y.assetId = a.assetId
    · rw [if_pos hy] at h
      injection h with h
      subst h
      rw [overwriteScalars, if_pos hy, hx]
    · rw [if_neg hy] at h
      rw [overwriteScalars, if_neg hy, ih x h hx]

theorem foldl_overwriteScalars_absorb (a : Asset) :
    ∀ (bs : List Asset) (v : List Asset), a.assetId ∈ bs.map Asset.assetId →
      bs.foldl (fun w b => overwriteScalars b w) (overwriteScalars a v) =
        bs.foldl (fun w b => overwriteScalars b w) v := by
  intro bs
  induction bs with
  | nil => intro v h; cases h
  | cons b rest ih =>
    intro v h
    simp only [List.foldl_cons]
    by_cases hab : a.assetId = b.assetId
    · rw [overwriteScalars_absorb a b hab]
    · have hin : a.assetId ∈ rest.map Asset.assetId := by
        simp only [List.map_cons, List.mem_cons] at h
        rcases h with h | h
        · exact absurd h hab
        · exact h
      rw [overwriteScalars_comm b a (fun hc => hab hc.symm), ih _ hin]

theorem foldl_overwriteScalars_fixed :
    ∀ (bs : List Asset) (v : List Asset),
      (∀ pre a post, bs = pre ++ a :: post → (∀ b ∈ post, b.assetId ≠ a.assetId) →
        overwriteScalars a v = v) →
      bs.foldl (fun w b => overwriteScalars b w) v = v := by
  intro bs
  induction bs with
  | nil => intro v _; rfl
  | cons a rest ih =>
    intro v h
    simp only [List.foldl_cons]
    have hrest : ∀ pre b post, rest = pre ++ b :: post → (∀ c ∈ post, c.assetId ≠ b.assetId) →
        overwriteScalars b v = v := by
      intro pre b post hsplit hpost
      exact h (a :: pre) b post (by rw [hsplit]; rfl) hpost
    by_cases hin : a.assetId ∈ rest.map Asset.assetId
    · rw [foldl_overwriteScalars_absorb a rest v hin]
      exact ih v hrest
    · have hfix : overwriteScalars a v = v := by
        apply h [] a rest rfl
        intro b hb hc
        exact hin (List.mem_map.2 ⟨b, hb, hc⟩)
      rw [hfix]
      exact ih v hrest

theorem covers_ingestAsset_self (now : Int) (s : Store) (c : IngestResult) (a : Asset) :
    Covers (ingestAsset now s c a).1 a := by
  obtain ⟨d, hd, _, _, hm⟩ := findOne_ingestAsset_self now s c a
  refine ⟨d, hd, ?_⟩
  intro m hmem
  rw [hm]
  cases hf : findOne s a.assetId with
  | none => exact List.mem_map.2 ⟨m, hmem, rfl⟩
  | some e =>
    simp only [List.map_append, List.mem_append]
    rcases keptBySpec_covers e.metrics a.metrics [] m hmem with h1 | h2 | h3
    · exact Or.inl h1
    · simp at h2
    · exact Or.inr h3

theorem covers_ingestAsset_mono (now : Int) (s : Store) (c : IngestResult) (a b : Asset)
    (h : Covers s a) : Covers (ingestAsset now s c b).1 a := by
  obtain ⟨d, hd, hcov⟩ := h
  by_cases hab : b.assetId = a.assetId
  · obtain ⟨d', hd', _, _, hm⟩ := findOne_ingestAsset_self now s c b
    rw [hab] at hd' hm
    rw [hd] at hm
    simp only at hm
    refine ⟨d', hd', ?_⟩
    intro m hmem
    rw [hm, List.map_append, List.mem_append]
    exact Or.inl (hcov m hmem)
  · exact ⟨d, by rw [findOne_ingestAsset_ne now s c b hab]; exact hd, hcov⟩

theorem covers_ingestAssets_mono (clock : Nat → Int) (a : Asset) :
    ∀ (bs : List Asset) (k : Nat) (s : Store) (c : IngestResult),
      Covers s a → Covers (ingestAssets clock k s c bs).1 a := by
  intro bs
  induction bs with
  | nil => intro k s c h; exact h
  | cons b rest ih =>
    intro k s c h
    simp only [ingestAssets]
    exact ih _ _ _ (covers_ingestAsset_mono _ _ _ _ _ h)

theorem covers_ingestAssets (clock : Nat → Int) :
    ∀ (as : List Asset) (k : Nat) (s : Store) (c : IngestResult),
      ∀ a ∈ as, Covers (ingestAssets clock k s c as).1 a := by
  intro as
  induction as with
  | nil => intro k s c a ha; cases ha
  | cons b rest ih =>
    intro k s c a ha
    simp only [ingestAssets]
    rcases List.mem_cons.1 ha with rfl | ha
    · exact covers_ingestAssets_mono clock _ rest _ _ _ (covers_ingestAsset_self _ _ _ _)
    · exact ih _ _ _ a ha

/-- A run on a store that already covers every record of the batch creates no
asset, inserts no metric, and only overwrites scalar fields. -/
theorem ingestAssets_covered (clock : Nat → Int) :
    ∀ (bs : List Asset) (k : Nat) (u : Store) (c : IngestResult),
      (∀ a ∈ bs, Covers u a) →
      (ingestAssets clock k u c bs).1.map Doc.toAsset =
          bs.foldl (fun w b => overwriteScalars b w) (u.map Doc.toAsset) ∧
        (ingestAssets clock k u c bs).2 =
          { assetsProcessed := c.assetsProcessed + bs.length, newAssets := c.newAssets,
            metricsInserted := c.metricsInserted } := by
  intro bs
  induction bs with
  | nil => intro k u c _; exact ⟨rfl, rfl⟩
  | cons a rest ih =>
    intro k u c h
    obtain ⟨d, hd, hcov⟩ := h a (List.mem_cons_self _ _)
    have hrest : ∀ b ∈ rest, Covers (ingestAsset (clock k) u c a).1 b :=
      fun b hb => covers_ingestAsset_mono _ _ _ _ _ (h b (List.mem_cons_of_mem _ hb))
    obtain ⟨h1, h2⟩ := ih (k + 1) (ingestAsset (clock k) u c a).1
      (ingestAsset (clock k) u c a).2 hrest
    simp only [ingestAssets, List.foldl_cons]
    rw [h1, h2]
    have hstep := ingestAsset_found (clock k) c hd
    have hk := keptBySpec_eq_nil d.metrics a.metrics [] hcov
    rw [hstep]
    simp only [hk, List.length_nil, Nat.add_zero, List.length_cons]
    refine ⟨?_, ?_⟩
    · rw [save_map_toAsset a (clock k) u d hd hcov]
    · congr 1
      omega

/-- Re-ingesting a normalised batch changes no asset field of the store. -/
theorem ingestAssets_twice (clock1 clock2 : Nat → Int) (as : List Asset) (s : Store) :
    (ingestAssets clock2 0 (ingestAssets clock1 0 s zeroResult as).1 zeroResult as).1.map
        Doc.toAsset = (ingestAssets clock1 0 s zeroResult as).1.map Doc.toAsset ∧
      (ingestAssets clock2 0 (ingestAssets clock1 0 s zeroResult as).1 zeroResult as).2 =
        { assetsProcessed := as.length, newAssets := 0, metricsInserted := 0 } := by
  obtain ⟨h1, h2⟩ := ingestAssets_covered clock2 as 0 (ingestAssets clock1 0 s zeroResult as).1
    zeroResult (covers_ingestAssets clock1 as 0 s zeroResult)
  refine ⟨?_, by rw [h2]; simp [zeroResult]⟩
  rw [h1]
  apply foldl_overwriteScalars_fixed
  intro pre a post hsplit hpost
  obtain ⟨d, hd, hm⟩ := findOne_ingestAssets_last clock1 pre a post 0 s zeroResult hpost
  rw [← hsplit] at hd
  have hid : d.assetId = a.assetId := findOne_assetId hd
  apply overwriteScalars_fixed a _ d.toAsset
  · rw [findAsset_map, hd]; rfl
  · obtain ⟨e1, e2, e3, e4, e5, e6, e7⟩ := hm
    simp [Doc.toAsset, hid, e1, e2, e3, e4, e5, e6, e7]

/-! ## Lemmas on normalisation -/

theorem normaliseMetric_error_iff (H : Host) (m assetId : JSVal) :
    (∃ e, normaliseMetric H m assetId = .error e) ↔
      (m.truthy = false ∨ m.isObject = false ∨ H.newDate (m.get "timestamp") = none ∨
        (H.Number (m.get "stateOfCharge")).isFinite = false ∨
        (H.Number (m.get "temperatureC")).isFinite = false) := by
  unfold normaliseMetric
  cases ht : m.truthy <;> cases ho : m.isObject <;> simp
  cases hd : H.newDate (m.get "timestamp") with
  | none => simp
  | some t =>
    cases h1 : (H.Number (m.get "stateOfCharge")).isFinite <;>
      cases h2 : (H.Number (m.get "temperatureC")).isFinite <;> simp

theorem checkNumericFields_error_iff (H : Host) (assetId : JSVal) :
    ∀ fields : List (String × JSVal),
      (∃ e, checkNumericFields H assetId fields = .error e) ↔
        ∃ fv ∈ fields, (H.Number fv.2).isFinite = false := by
  intro fields
  induction fields with
  | nil => simp [checkNumericFields]
  | cons fv rest ih =>
    obtain ⟨f, v⟩ := fv
    unfold checkNumericFields
    cases hv : (H.Number v).isFinite
    · simp [hv]
    · simp only [Bool.not_true, Bool.false_eq_true, if_false, ih, List.mem_cons]
      constructor
      · rintro ⟨x, hx, hxf⟩; exact ⟨x, Or.inr hx, hxf⟩
      · rintro ⟨x, hx | hx, hxf⟩
        · subst hx; simp [hv] at hxf
        · exact ⟨x, hx, hxf⟩

theorem normaliseMetrics_error_iff (H : Host) (assetId : JSVal) :
    ∀ xs : List JSVal,
      (∃ e, normaliseMetrics H assetId xs = .error e) ↔
        ∃ m ∈ xs, ∃ e, normaliseMetric H m assetId = .error e := by
  intro xs
  induction xs with
  | nil => simp [normaliseMetrics]
  | cons x rest ih =>
    unfold normaliseMetrics
    cases hx : normaliseMetric H x assetId with
    | error e => simp [hx]
    | ok y =>
      cases hrest : normaliseMetrics H assetId rest with
      | error e =>
        obtain ⟨m, hm, hme⟩ := ih.1 ⟨e, hrest⟩
        exact ⟨fun _ => ⟨m, List.mem_cons_of_mem _ hm, hme⟩, fun _ => ⟨e, rfl⟩⟩
      | ok ys =>
        have hno : ¬ ∃ m ∈ rest, ∃ e, normaliseMetric H m assetId = .error e := by
          rw [← ih, hrest]; simp
        constructor
        · rintro ⟨e, he⟩; cases he
        · rintro ⟨m, hm, e, hme⟩
          rcases List.mem_cons.1 hm with hm | hm
          · subst hm; rw [hx] at hme; cases hme
          · exact absurd ⟨m, hm, e, hme⟩ hno

theorem except_ok_iff_not_error {ε α : Type} (x : Except ε α) :
    (∃ a, x = .ok a) ↔ ¬ ∃ e, x = .error e := by
  cases x <;> simp

theorem keptBySpec_nodup (stored : List Metric) :
    ∀ (inc earlier : List Metric),
      ((keptBySpec stored earlier inc).map Metric.key).Nodup ∧
      ∀ k ∈ (keptBySpec stored earlier inc).map Metric.key,
        k ∉ stored.map Metric.key ∧ k ∉ earlier.map Metric.key := by
  intro inc
  induction inc with
  | nil => intro earlier; simp [keptBySpec]
  | cons m rest ih =>
    intro earlier
    obtain ⟨hn, hk⟩ := ih (earlier ++ [m])
    have hweak : ∀ k ∈ (keptBySpec stored (earlier ++ [m]) rest).map Metric.key,
        k ∉ stored.map Metric.key ∧ k ∉ earlier.map Metric.key ∧ k ≠ m.key := by
      intro k hkm
      obtain ⟨h1, h2⟩ := hk k hkm
      simp only [List.map_append, List.mem_append, List.map_cons, List.map_nil,
        List.mem_singleton, not_or] at h2
      exact ⟨h1, h2.1, h2.2⟩
    by_cases hc : toISOString m.timestamp ∉ stored.map (fun y => toISOString y.timestamp) ∧
        toISOString m.timestamp ∉ earlier.map (fun y => toISOString y.timestamp)
    · rw [keptBySpec, if_pos hc, List.map_cons]
      refine ⟨List.nodup_cons.2 ⟨fun hin => (hweak _ hin).2.2 rfl, hn⟩, ?_⟩
      intro k hkm
      rcases List.mem_cons.1 hkm with rfl | hkm
      · exact hc
      · exact ⟨(hweak k hkm).1, (hweak k hkm).2.1⟩
    · rw [keptBySpec, if_neg hc]
      exact ⟨hn, fun k hkm => ⟨(hweak k hkm).1, (hweak k hkm).2.1⟩⟩

/-- The update path keeps metric keys pairwise distinct: merging a record into
a stored asset whose keys are distinct leaves them distinct. -/
theorem mergeWith_keys_nodup (d : Doc) (a : Asset) (now : Int)
    (h : (d.metrics.map Metric.key).Nodup) :
    ((d.mergeWith a now).metrics.map Metric.key).Nodup := by
  obtain ⟨hn, hk⟩ := keptBySpec_nodup d.metrics a.metrics []
  show ((d.metrics ++ keptBySpec d.metrics [] a.metrics).map Metric.key).Nodup
  rw [List.map_append]
  refine List.Nodup.append h hn ?_
  intro k h1 h2
  exact (hk k h2).1 h1

/-! ## Lemmas on maps -/

theorem mapGet_mapSet {κ ν : Type} [DecidableEq κ] (k : κ) (v : ν) (k' : κ) :
    ∀ m : JSMap κ ν, mapGet (mapSet m k v) k' = if k = k' then some v else mapGet m k' := by
  intro m
  induction m with
  | nil =>
    by_cases h : k = k' <;> simp [mapSet, mapGet, h]
  | cons e rest ih =>
    obtain ⟨k0, v0⟩ := e
    by_cases h0 : k0 = k
    · subst h0
      have e1 : mapSet ((k0, v0) :: rest) k0 v = (k0, v) :: rest := by
        rw [mapSet]; exact if_pos rfl
      rw [e1]
      by_cases h : k0 = k' <;> simp [mapGet, h]
    · have e1 : mapSet ((k0, v0) :: rest) k v = (k0, v0) :: mapSet rest k v := by
        rw [mapSet]; exact if_neg h0
      rw [e1]
      by_cases h1 : k0 = k'
      · have : ¬ k = k' := fun hk => h0 (h1.trans hk.symm)
        simp [mapGet, h1, this]
      · simp only [mapGet, h1, if_false]
        exact ih

theorem keys_mapSet {κ ν : Type} [DecidableEq κ] (k : κ) (v : ν) :
    ∀ m : JSMap κ ν, (mapSet m k v).map Prod.fst =
      if k ∈ m.map Prod.fst then m.map Prod.fst else m.map Prod.fst ++ [k] := by
  intro m
  induction m with
  | nil => simp [mapSet]
  | cons e rest ih =>
    obtain ⟨k0, v0⟩ := e
    by_cases h0 : k0 = k
    · subst h0
      have e1 : mapSet ((k0, v0) :: rest) k0 v = (k0, v) :: rest := by
        rw [mapSet]; exact if_pos rfl
      rw [e1]
      simp
    · have e1 : mapSet ((k0, v0) :: rest) k v = (k0, v0) :: mapSet rest k v := by
        rw [mapSet]; exact if_neg h0
      rw [e1, List.map_cons, ih]
      have hne : ¬ k = k0 := fun h => h0 h.symm
      by_cases hin : k ∈ rest.map Prod.fst
      · simp [hin]
      · simp [hin, hne]

theorem mapGet_eq_none {κ ν : Type} [DecidableEq κ] (k : κ) :
    ∀ m : JSMap κ ν, mapGet m k = none ↔ k ∉ m.map Prod.fst := by
  intro m
  induction m with
  | nil => simp [mapGet]
  | cons e rest ih =>
    obtain ⟨k0, v0⟩ := e
    by_cases h0 : k0 = k
    · simp [mapGet, h0]
    · have hne : ¬ k = k0 := fun h => h0 h.symm
      simp [mapGet, h0, ih, hne]

theorem mapGet_of_mem {κ ν : Type} [DecidableEq κ] :
    ∀ (m : JSMap κ ν) (k : κ) (v : ν), (m.map Prod.fst).Nodup → (k, v) ∈ m →
      mapGet m k = some v := by
  intro m
  induction m with
  | nil => intro k v _ h; cases h
  | cons e rest ih =>
    obtain ⟨k0, v0⟩ := e
    intro k v hnd hmem
    rw [List.map_cons, List.nodup_cons] at hnd
    rcases List.mem_cons.1 hmem with h | h
    · injection h with h1 h2
      subst h1; subst h2
      simp [mapGet]
    · have hk : k0 ≠ k := by
        intro hc
        subst hc
        exact hnd.1 (List.mem_map.2 ⟨(k0, v), h, rfl⟩)
      simp only [mapGet, hk, if_false]
      exact ih k v hnd.2 h

theorem mem_of_mapGet {κ ν : Type} [DecidableEq κ] :
    ∀ (m : JSMap κ ν) (k : κ) (v : ν), mapGet m k = some v → (k, v) ∈ m := by
  intro m
  induction m with
  | nil => intro k v h; simp [mapGet] at h
  | cons e rest ih =>
    obtain ⟨k0, v0⟩ := e
    intro k v h
    by_cases h0 : k0 = k
    · simp only [mapGet, h0, if_true, Option.some.injEq] at h
      subst h; subst h0
      exact List.mem_cons_self _ _
    · simp only [mapGet, h0, if_false] at h
      exact List.mem_cons_of_mem _ (ih k v h)

/-! ## Lemmas on the order of first appearance -/

theorem keysFold_spec {κ : Type} [DecidableEq κ] :
    ∀ (l acc : List κ), acc.Nodup →
      ∃ N, keysFold acc l = acc ++ N ∧ (acc ++ N).Nodup ∧
        (∀ k, k ∈ N ↔ k ∈ l ∧ k ∉ acc) ∧
        N.Pairwise (fun a b => l.indexOf a < l.indexOf b) := by
  intro l
  induction l with
  | nil => intro acc h; exact ⟨[], by simp [keysFold], by simpa using h, by simp, List.Pairwise.nil⟩
  | cons x rest ih =>
    intro acc hacc
    by_cases hx : x ∈ acc
    · obtain ⟨N, h1, h2, h3, h4⟩ := ih acc hacc
      refine ⟨N, ?_, h2, ?_, ?_⟩
      · rw [keysFold, if_pos hx, h1]
      · intro k
        rw [h3 k, List.mem_cons]
        constructor
        · rintro ⟨a, b⟩; exact ⟨Or.inr a, b⟩
        · rintro ⟨a | a, b⟩
          · subst a; exact absurd hx b
          · exact ⟨a, b⟩
      · have hne : ∀ k ∈ N, x ≠ k := by
          intro k hk hc
          subst hc
          exact ((h3 x).1 hk).2 hx
        refine (List.Pairwise.and_mem.1 h4).imp ?_
        rintro a b ⟨ha, hb, hab⟩
        rw [List.indexOf_cons_ne _ (hne a ha), List.indexOf_cons_ne _ (hne b hb)]
        omega
    · have hacc2 : (acc ++ [x]).Nodup := by
        rw [List.nodup_append]
        refine ⟨hacc, List.nodup_singleton _, ?_⟩
        intro a ha hb
        rw [List.mem_singleton] at hb
        subst hb
        exact hx ha
      obtain ⟨N, h1, h2, h3, h4⟩ := ih (acc ++ [x]) hacc2
      have hne : ∀ k ∈ N, x ≠ k := by
        intro k hk hc
        subst hc
        exact ((h3 x).1 hk).2 (by simp)
      refine ⟨x :: N, ?_, ?_, ?_, ?_⟩
      · rw [keysFold, if_neg hx, h1]
        simp
      · simpa using h2
      · intro k
        rw [List.mem_cons, h3 k, List.mem_cons]
        simp only [List.mem_append, List.mem_singleton, not_or]
        constructor
        · rintro (h | ⟨a, b, _⟩)
          · subst h; exact ⟨Or.inl rfl, hx⟩
          · exact ⟨Or.inr a, b⟩
        · rintro ⟨h | h, b⟩
          · exact Or.inl h
          · by_cases hk : k = x
            · exact Or.inl hk
            · exact Or.inr ⟨h, b, hk⟩
      · rw [List.pairwise_cons]
        refine ⟨?_, ?_⟩
        · intro b hb
          rw [List.indexOf_cons_self, List.indexOf_cons_ne _ (hne b hb)]
          omega
        · refine (List.Pairwise.and_mem.1 h4).imp ?_
          rintro a b ⟨ha, hb, hab⟩
          rw [List.indexOf_cons_ne _ (hne a ha), List.indexOf_cons_ne _ (hne b hb)]
          omega

theorem keysFold_nil_spec {κ : Type} [DecidableEq κ] (l : List κ) :
    (keysFold [] l).Nodup ∧ (∀ k, k ∈ keysFold [] l ↔ k ∈ l) ∧
      (keysFold [] l).Pairwise (fun a b => l.indexOf a < l.indexOf b) := by
  obtain ⟨N, h1, h2, h3, h4⟩ := keysFold_spec l [] List.nodup_nil
  simp only [List.nil_append] at h1 h2
  rw [h1]
  exact ⟨h2, fun k => by simpa using h3 k, h4⟩

/-! ## Lemmas on the aggregation loop -/

theorem keys_foldl_mapSet {χ κ ν : Type} [DecidableEq κ] (key : χ → κ) (g : χ → Option ν → ν) :
    ∀ (xs : List χ) (m : JSMap κ ν),
      (xs.foldl (fun m x => mapSet m (key x) (g x (mapGet m (key x)))) m).map Prod.fst =
        keysFold (m.map Prod.fst) (xs.map key) := by
  intro xs
  induction xs with
  | nil => intro m; rfl
  | cons x rest ih =>
    intro m
    rw [List.foldl_cons, ih, keys_mapSet, List.map_cons, keysFold]
    by_cases h : key x ∈ m.map Prod.fst <;> simp [h]

theorem mapGet_foldl_mapSet {χ κ ν : Type} [DecidableEq κ] (key : χ → κ)
    (g : χ → Option ν → ν) (k : κ) :
    ∀ (xs : List χ) (m : JSMap κ ν),
      mapGet (xs.foldl (fun m x => mapSet m (key x) (g x (mapGet m (key x)))) m) k =
        (xs.filter (fun x => decide (key x = k))).foldl (fun o x => some (g x o))
          (mapGet m k) := by
  intro xs
  induction xs with
  | nil => intro m; rfl
  | cons x rest ih =>
    intro m
    rw [List.foldl_cons, ih, mapGet_mapSet]
    by_cases h : key x = k
    · subst h
      simp
    · simp [h]

theorem mapSet_mapSet {κ ν : Type} [DecidableEq κ] (k : κ) (v w : ν) :
    ∀ m : JSMap κ ν, mapSet (mapSet m k v) k w = mapSet m k w := by
  intro m
  induction m with
  | nil => simp [mapSet]
  | cons e rest ih =>
    obtain ⟨k0, v0⟩ := e
    by_cases h0 : k0 = k
    · subst h0; simp [mapSet]
    · simp [mapSet, h0, ih]

theorem trendPush_valid (m : JSMap Int (List JSNum)) (x : Metric) :
    trendPush m { timestamp := some x.timestamp, stateOfCharge := some x.stateOfCharge } =
      .ok (trendStep m x) := by
  unfold trendPush trendStep toISOString
  simp only
  cases hg : mapGet m x.timestamp with
  | some vs => simp [mapHas, hg]
  | none =>
    simp only [mapHas, hg, Option.isSome_none, Bool.not_false, if_true]
    rw [mapGet_mapSet, mapSet_mapSet]
    simp

theorem forEachMetric_valid :
    ∀ (xs : List Metric) (m : JSMap Int (List JSNum)),
      forEachMetric m (xs.map
        (fun x => { timestamp := some x.timestamp, stateOfCharge := some x.stateOfCharge })) =
        .ok (xs.foldl trendStep m) := by
  intro xs
  induction xs with
  | nil => intro m; rfl
  | cons x rest ih =>
    intro m
    rw [List.map_cons, forEachMetric, trendPush_valid]
    exact ih _

theorem forEachAsset_docs (A : Arith) :
    ∀ (docs : List Doc) (maps : DashboardMaps),
      forEachAsset A maps (docs.map Doc.toRaw) =
        .ok { capacityByRegionMap := docs.foldl (regionStep A) maps.capacityByRegionMap
              statusBreakdownMap := docs.foldl (statusStep A) maps.statusBreakdownMap
              trendBuckets := (allMetrics docs).foldl trendStep maps.trendBuckets } := by
  intro docs
  induction docs with
  | nil => intro maps; rfl
  | cons d rest ih =>
    intro maps
    rw [List.map_cons, forEachAsset]
    have hm : (Doc.toRaw d).metrics.getD [] = d.metrics.map
        (fun x => { timestamp := some x.timestamp, stateOfCharge := some x.stateOfCharge }) := rfl
    simp only [hm, forEachMetric_valid]
    rw [ih]
    simp only [allMetrics, List.foldl_append, List.foldl_cons]
    rfl

/-- On stored documents `calculateDashboardMetrics` returns, with the region
entries and the trend points read off the folded maps. -/
theorem calculateDashboardMetrics_docs (A : Arith) (docs : List Doc) :
    ∃ m, calculateDashboardMetrics A (docs.map Doc.toRaw) = .ok m ∧
      m.capacityByRegion = (docs.foldl (regionStep A) []).map
        (fun entry => ({ region := entry.1, capacityMWh := entry.2 } : RegionCapacity)) ∧
      m.stateOfChargeTrend =
        (((allMetrics docs).foldl trendStep []).map (trendPoint A)).insertionSort
          TrendPoint.le := by
  unfold calculateDashboardMetrics
  cases docs with
  | nil => exact ⟨_, rfl, rfl, rfl⟩
  | cons d rest =>
    simp only [List.map_cons, List.length_cons, Nat.add_one_ne_zero, if_false]
    rw [← List.map_cons, forEachAsset_docs]
    exact ⟨_, rfl, rfl, rfl⟩

theorem mem_allMetrics (x : Metric) :
    ∀ docs : List Doc, x ∈ allMetrics docs ↔ ∃ d ∈ docs, x ∈ d.metrics := by
  intro docs
  induction docs with
  | nil => simp [allMetrics]
  | cons d rest ih => simp [allMetrics, ih]

theorem orZero_some_of_ne_nan {x : JSNum} (h : x ≠ .nan) : orZero (some x) = x := by
  cases x with
  | nan => exact absurd rfl h
  | posInf => rfl
  | negInf => rfl
  | fin q =>
    by_cases hq : q = 0
    · subst hq; simp [orZero, JSNum.truthy]
    · simp [orZero, JSNum.truthy, hq]

theorem ne_nan_of_isFinite {x : JSNum} (h : x.isFinite = true) : x ≠ .nan := by
  cases x <;> simp [JSNum.isFinite] at h ⊢

theorem regionFold_some (A : Arith) (hadd : ∀ x q, x ≠ .nan → A.add x (.fin q) ≠ .nan) :
    ∀ (ds : List Doc) (acc : JSNum), acc ≠ .nan →
      (∀ d ∈ ds, d.capacityMWh.isFinite = true) →
      ds.foldl (fun o d => some (A.add (orZero o) (orZero (some d.capacityMWh)))) (some acc) =
        some ((ds.map (fun d => d.capacityMWh)).foldl A.add acc) := by
  intro ds
  induction ds with
  | nil => intro acc _ _; rfl
  | cons d rest ih =>
    intro acc hacc hfin
    have hd := hfin d (List.mem_cons_self _ _)
    obtain ⟨q, hq⟩ : ∃ q, d.capacityMWh = .fin q := by
      cases hc : d.capacityMWh with
      | fin q => exact ⟨q, rfl⟩
      | nan => rw [hc] at hd; cases hd
      | posInf => rw [hc] at hd; cases hd
      | negInf => rw [hc] at hd; cases hd
    have hne : A.add acc d.capacityMWh ≠ .nan := by rw [hq]; exact hadd acc q hacc
    rw [List.foldl_cons, List.map_cons, List.foldl_cons, orZero_some_of_ne_nan hacc,
      orZero_some_of_ne_nan (ne_nan_of_isFinite hd)]
    exact ih _ hne (fun x hx => hfin x (List.mem_cons_of_mem _ hx))

theorem regionFold_none (A : Arith) (hadd : ∀ x q, x ≠ .nan → A.add x (.fin q) ≠ .nan)
    (ds : List Doc) (hfin : ∀ d ∈ ds, d.capacityMWh.isFinite = true) (v : JSNum)
    (h : ds.foldl (fun o d => some (A.add (orZero o) (orZero (some d.capacityMWh)))) none =
      some v) :
    v = sumList A (ds.map (fun d => d.capacityMWh)) := by
  cases ds with
  | nil => cases h
  | cons d rest =>
    have hd := hfin d (List.mem_cons_self _ _)
    obtain ⟨q, hq⟩ : ∃ q, d.capacityMWh = .fin q := by
      cases hc : d.capacityMWh with
      | fin q => exact ⟨q, rfl⟩
      | nan => rw [hc] at hd; cases hd
      | posInf => rw [hc] at hd; cases hd
      | negInf => rw [hc] at hd; cases hd
    have hne : A.add (.fin 0) d.capacityMWh ≠ .nan := by
      rw [hq]; exact hadd _ q (by simp)
    rw [List.foldl_cons, orZero_some_of_ne_nan (ne_nan_of_isFinite hd)] at h
    have h0 : orZero none = .fin 0 := rfl
    rw [h0, regionFold_some A hadd rest _ hne
      (fun x hx => hfin x (List.mem_cons_of_mem _ hx))] at h
    injection h with h
    rw [← h]
    rfl

theorem trendFold_some :
    ∀ (xs : List Metric) (acc : List JSNum),
      xs.foldl (fun o x => some ((Option.getD o []) ++ [orZero (some x.stateOfCharge)]))
          (some acc) =
        some (acc ++ xs.map (fun x => orZero (some x.stateOfCharge))) := by
  intro xs
  induction xs with
  | nil => intro acc; simp
  | cons x rest ih =>
    intro acc
    rw [List.foldl_cons, Option.getD_some, ih]
    simp

theorem trendFold_none (xs : List Metric) (vs : List JSNum)
    (h : xs.foldl (fun o x => some ((Option.getD o []) ++ [orZero (some x.stateOfCharge)]))
      none = some vs) :
    vs = xs.map (fun x => orZero (some x.stateOfCharge)) ∧ xs ≠ [] := by
  cases xs with
  | nil => cases h
  | cons x rest =>
    rw [List.foldl_cons, Option.getD_none, trendFold_some] at h
    injection h with h
    exact ⟨by rw [← h]; simp, by simp⟩

theorem trendKeys (docs : List Doc) :
    ((allMetrics docs).foldl trendStep []).map Prod.fst =
      keysFold [] ((allMetrics docs).map (fun x => x.timestamp)) :=
  keys_foldl_mapSet (fun x : Metric => x.timestamp)
    (fun (x : Metric) (o : Option (List JSNum)) =>
      (Option.getD o []) ++ [orZero (some x.stateOfCharge)])
    (allMetrics docs) ([] : JSMap Int (List JSNum))

/-! ## Lemmas on the summary -/

theorem summaryLoop_total (A : Arith) :
    ∀ (xs : List RawMetric) (l : Option (Option Int)) (tot : JSNum),
      (summaryLoop A xs (l, tot)).2 =
        (xs.map (fun x => orZero x.stateOfCharge)).foldl A.add tot := by
  intro xs
  induction xs with
  | nil => intro l tot; rfl
  | cons x rest ih =>
    intro l tot
    have e1 : summaryLoop A (x :: rest) (l, tot) =
        summaryLoop A rest
          ((match l with
            | none => some x.timestamp
            | some l0 => if dateGt x.timestamp l0 then some x.timestamp else some l0),
            A.add tot (orZero x.stateOfCharge)) := rfl
    rw [e1, ih]
    rfl

theorem summaryLoop_latest_some (A : Arith) :
    ∀ (xs : List Metric) (t0 : Int) (tot : JSNum),
      ∃ t, (summaryLoop A (xs.map (fun x =>
          ({ timestamp := some x.timestamp, stateOfCharge := some x.stateOfCharge } : RawMetric)))
          (some (some t0), tot)).1 = some (some t) ∧
        (t = t0 ∨ t ∈ xs.map (fun x => x.timestamp)) ∧ t0 ≤ t ∧
        ∀ x ∈ xs, x.timestamp ≤ t := by
  intro xs
  induction xs with
  | nil => intro t0 tot; exact ⟨t0, rfl, Or.inl rfl, le_refl _, fun x hx => by cases hx⟩
  | cons x rest ih =>
    intro t0 tot
    rw [List.map_cons, summaryLoop]
    by_cases hgt : x.timestamp > t0
    · have hd : dateGt (some x.timestamp) (some t0) = true := by simp [dateGt, hgt]
      simp only [hd, if_true]
      obtain ⟨t, h1, h2, h3, h4⟩ := ih x.timestamp
        (A.add tot (orZero (some x.stateOfCharge)))
      refine ⟨t, h1, ?_, by omega, ?_⟩
      · rcases h2 with h2 | h2
        · exact Or.inr (by rw [h2]; simp)
        · exact Or.inr (List.mem_cons_of_mem _ h2)
      · intro y hy
        rcases List.mem_cons.1 hy with rfl | hy
        · exact h3
        · exact h4 y hy
    · have hd : dateGt (some x.timestamp) (some t0) = false := by simp [dateGt, hgt]
      simp only [hd, Bool.false_eq_true, if_false]
      obtain ⟨t, h1, h2, h3, h4⟩ := ih t0 (A.add tot (orZero (some x.stateOfCharge)))
      refine ⟨t, h1, ?_, h3, ?_⟩
      · rcases h2 with h2 | h2
        · exact Or.inl h2
        · exact Or.inr (List.mem_cons_of_mem _ h2)
      · intro y hy
        rcases List.mem_cons.1 hy with rfl | hy
        · omega
        · exact h4 y hy

/-- The summary of a stored document. -/
theorem summarise_doc (A : Arith) (d : Doc)
    (hsoc : ∀ x ∈ d.metrics, x.stateOfCharge ≠ .nan) :
    (summarise A d.toRaw).assetId = d.assetId ∧
    (summarise A d.toRaw).metricsCount = d.metrics.length ∧
    (d.metrics = [] → (summarise A d.toRaw).latestTimestamp = none ∧
      (summarise A d.toRaw).averageStateOfCharge = none) ∧
    (d.metrics ≠ [] →
      (∃ t, (summarise A d.toRaw).latestTimestamp = some (some t) ∧
        t ∈ d.metrics.map (fun x => x.timestamp) ∧ ∀ x ∈ d.metrics, x.timestamp ≤ t) ∧
      (summarise A d.toRaw).averageStateOfCharge =
        some (meanOf A (d.metrics.map (fun x => x.stateOfCharge)))) := by
  have hraw : (Doc.toRaw d).metrics.getD [] = d.metrics.map (fun x =>
      ({ timestamp := some x.timestamp, stateOfCharge := some x.stateOfCharge } : RawMetric)) :=
    rfl
  have hlen : ((Doc.toRaw d).metrics.getD []).length = d.metrics.length := by
    rw [hraw, List.length_map]
  refine ⟨rfl, hlen, ?_, ?_⟩
  · intro hnil
    unfold summarise
    simp only [hraw, hnil, List.map_nil, List.length_nil, gt_iff_lt, lt_self_iff_false, if_false]
    exact ⟨rfl, trivial⟩
  · intro hne
    unfold summarise
    simp only [hlen]
    have hpos : d.metrics.length > 0 := List.length_pos.2 hne
    simp only [hpos, if_true]
    refine ⟨?_, ?_⟩
    · rw [hraw]
      cases hm : d.metrics with
      | nil => exact absurd hm hne
      | cons x rest =>
        rw [List.map_cons, summaryLoop]
        obtain ⟨t, h1, h2, h3, h4⟩ := summaryLoop_latest_some A rest x.timestamp
          (A.add (.fin 0) (orZero (some x.stateOfCharge)))
        refine ⟨t, h1, ?_, ?_⟩
        · rcases h2 with h2 | h2
          · rw [h2]; simp
          · exact List.mem_cons_of_mem _ h2
        · intro y hy
          rcases List.mem_cons.1 hy with rfl | hy
          · exact h3
          · exact h4 y hy
    · rw [summaryLoop_total, hraw, List.map_map]
      have hmap : d.metrics.map ((fun x : RawMetric => orZero x.stateOfCharge) ∘
          (fun x : Metric =>
            ({ timestamp := some x.timestamp, stateOfCharge := some x.stateOfCharge } :
              RawMetric))) = d.metrics.map (fun x => x.stateOfCharge) := by
        apply List.map_congr_left
        intro x hx
        exact orZero_some_of_ne_nan (hsoc x hx)
      rw [hmap]
      simp [meanOf, sumList]

/-! ## Failure of the aggregation -/

theorem forEachMetric_error_iff :
    ∀ (xs : List RawMetric) (m : JSMap Int (List JSNum)),
      (∃ e, forEachMetric m xs = .error e) ↔ ∃ x ∈ xs, x.timestamp = none := by
  intro xs
  induction xs with
  | nil => intro m; simp [forEachMetric]
  | cons x rest ih =>
    intro m
    rw [forEachMetric]
    cases ht : x.timestamp with
    | none =>
      have e1 : trendPush m x = .error .invalidTimeValue := by simp [trendPush, ht]
      rw [e1]
      exact ⟨fun _ => ⟨x, List.mem_cons_self _ _, ht⟩, fun _ => ⟨.invalidTimeValue, rfl⟩⟩
    | some t =>
      simp only [trendPush, ht, List.mem_cons]
      rw [ih]
      constructor
      · rintro ⟨y, hy, hyt⟩; exact ⟨y, Or.inr hy, hyt⟩
      · rintro ⟨y, hy | hy, hyt⟩
        · subst hy; rw [ht] at hyt; cases hyt
        · exact ⟨y, hy, hyt⟩

theorem forEachAsset_error_iff (A : Arith) :
    ∀ (assets : List RawAsset) (maps : DashboardMaps),
      (∃ e, forEachAsset A maps assets = .error e) ↔
        ∃ a ∈ assets, ∃ x ∈ a.metrics.getD [], x.timestamp = none := by
  intro assets
  induction assets with
  | nil => intro maps; simp [forEachAsset]
  | cons a rest ih =>
    intro maps
    rw [forEachAsset]
    cases hm : forEachMetric maps.trendBuckets (a.metrics.getD []) with
    | error e =>
      have := (forEachMetric_error_iff _ _).1 ⟨e, hm⟩
      exact ⟨fun _ => ⟨a, List.mem_cons_self _ _, this⟩, fun _ => ⟨e, rfl⟩⟩
    | ok b =>
      have hno : ¬ ∃ x ∈ a.metrics.getD [], x.timestamp = none := by
        rw [← forEachMetric_error_iff _ maps.trendBuckets, hm]
        simp
      simp only
      rw [ih]
      constructor
      · rintro ⟨y, hy, h⟩; exact ⟨y, List.mem_cons_of_mem _ hy, h⟩
      · rintro ⟨y, hy, h⟩
        rcases List.mem_cons.1 hy with rfl | hy
        · exact absurd h hno
        · exact ⟨y, hy, h⟩

/-- The aggregation throws exactly when some metric of some asset has a missing
or invalid timestamp; missing or non-finite numeric values never make it throw. -/
theorem calculateDashboardMetrics_error_iff (A : Arith) (assets : List RawAsset) :
    (∃ e, calculateDashboardMetrics A assets = .error e) ↔
      ∃ a ∈ assets, ∃ x ∈ a.metrics.getD [], x.timestamp = none := by
  unfold calculateDashboardMetrics
  cases assets with
  | nil => simp
  | cons a rest =>
    simp only [List.length_cons, Nat.add_one_ne_zero, if_false]
    rw [← forEachAsset_error_iff A (a :: rest)
      { capacityByRegionMap := [], statusBreakdownMap := [], trendBuckets := [] }]
    cases forEachAsset A
      { capacityByRegionMap := [], statusBreakdownMap := [], trendBuckets := [] }
      (a :: rest) <;> simp

/-! ## Lemmas on the metric count -/

theorem totalMetrics_cons (d : Doc) (s : Store) :
    totalMetrics (d :: s) = d.metrics.length + totalMetrics s := by
  simp [totalMetrics]

theorem totalMetrics_save (doc : Doc) :
    ∀ (s : Store) (d : Doc), findOne s doc.assetId = some d →
      totalMetrics (save s doc) + d.metrics.length = totalMetrics s + doc.metrics.length := by
  intro s
  induction s with
  | nil => intro d h; simp [findOne] at h
  | cons e rest ih =>
    intro d h
    rw [findOne_cons] at h
    by_cases he : e.assetId = doc.assetId
    · rw [if_pos he] at h
      injection h with h
      subst h
      have h1 : save (e :: rest) doc = doc :: rest := by rw [save]; exact if_pos he
      rw [h1, totalMetrics_cons, totalMetrics_cons]
      omega
    · rw [if_neg he] at h
      have h1 : save (e :: rest) doc = e :: save rest doc := by rw [save]; exact if_neg he
      rw [h1, totalMetrics_cons, totalMetrics_cons]
      have := ih d h
      omega

theorem totalMetrics_create (s : Store) (p : Doc) :
    totalMetrics (create s p) = totalMetrics s + p.metrics.length := by
  simp [totalMetrics, create]

theorem ingestAsset_totalMetrics (now : Int) (s : Store) (c : IngestResult) (a : Asset) :
    (ingestAsset now s c a).2.metricsInserted + totalMetrics s =
      c.metricsInserted + totalMetrics (ingestAsset now s c a).1 := by
  cases h : findOne s a.assetId with
  | some e =>
    rw [ingestAsset_found now c h]
    have hid : (e.mergeWith a now).assetId = a.assetId := by
      show e.assetId = a.assetId
      exact findOne_assetId h
    have := totalMetrics_save (e.mergeWith a now) s e (by rw [hid]; exact h)
    have hlen : (e.mergeWith a now).metrics.length =
        e.metrics.length + (keptBySpec e.metrics [] a.metrics).length := by
      simp [Doc.mergeWith]
    simp only
    omega
  | none =>
    rw [ingestAsset_new now c h, totalMetrics_create]
    simp only [Doc.ofAsset]
    omega

theorem ingestLoop_totalMetrics (H : Host) (clock : Nat → Int) :
    ∀ (rs : List JSVal) (k : Nat) (s : Store) (c res : IngestResult),
      (ingestLoop H clock k s c rs).2 = .ok res →
      res.metricsInserted + totalMetrics s =
        c.metricsInserted + totalMetrics (ingestLoop H clock k s c rs).1 := by
  intro rs
  induction rs with
  | nil =>
    intro k s c res h
    simp only [ingestLoop, Except.ok.injEq] at h
    subst h
    rfl
  | cons r rest ih =>
    intro k s c res h
    unfold ingestLoop at h ⊢
    cases hr : normaliseAsset H r with
    | error e => simp [hr] at h
    | ok a =>
      simp only [hr] at h ⊢
      have h1 := ih (k + 1) _ _ res h
      have h2 := ingestAsset_totalMetrics (clock k) s c a
      omega

theorem refArith_add_ne_nan (x : JSNum) (q : ℚ) (h : x ≠ .nan) :
    refArith.add x (.fin q) ≠ .nan := by
  cases x with
  | nan => exact absurd rfl h
  | posInf => simp [refArith]
  | negInf => simp [refArith]
  | fin p => simp [refArith]

/-! ## Lemmas on the totals and on the returned assets -/

theorem foldl_orZero_docs (A : Arith) (f : Doc → JSNum) :
    ∀ (docs : List Doc) (acc : JSNum), (∀ a ∈ docs, f a ≠ .nan) →
      docs.foldl (fun sum a => A.add sum (orZero (some (f a)))) acc =
        (docs.map f).foldl A.add acc := by
  intro docs
  induction docs with
  | nil => intro acc _; rfl
  | cons d rest ih =>
    intro acc h
    rw [List.foldl_cons, List.map_cons, List.foldl_cons,
      orZero_some_of_ne_nan (h d (List.mem_cons_self d rest))]
    exact ih _ (fun a ha => h a (List.mem_cons_of_mem d ha))

theorem calculateDashboardMetrics_totals (A : Arith) (docs : List Doc) (hne : docs ≠ [])
    (hcap : ∀ a ∈ docs, a.capacityMWh ≠ .nan)
    (hav : ∀ a ∈ docs, a.availability ≠ .nan) :
    ∃ m, calculateDashboardMetrics A (docs.map Doc.toRaw) = .ok m ∧
      m.totalCapacityMWh = A.toFixed2 (sumList A (docs.map (fun a => a.capacityMWh))) ∧
      m.averageAvailability =
        A.toFixed2 (A.mul (meanOf A (docs.map (fun a => a.availability))) (.fin 100)) := by
  unfold calculateDashboardMetrics
  cases docs with
  | nil => exact absurd rfl hne
  | cons d rest =>
    simp only [List.length_map, List.length_cons, Nat.add_one_ne_zero, if_false]
    rw [forEachAsset_docs]
    refine ⟨_, rfl, ?_, ?_⟩
    · show A.toFixed2 (((d :: rest).map Doc.toRaw).foldl
          (fun sum asset => A.add sum (orZero asset.capacityMWh)) (.fin 0)) = _
      rw [List.foldl_map]
      exact congrArg A.toFixed2 (foldl_orZero_docs A (fun a => a.capacityMWh) _ _ hcap)
    · show A.toFixed2 (A.mul (A.div (((d :: rest).map Doc.toRaw).foldl
          (fun sum asset => A.add sum (orZero asset.availability)) (.fin 0))
          (.fin ((rest.length + 1 : Nat) : ℚ))) (.fin 100)) = _
      rw [List.foldl_map]
      have e := foldl_orZero_docs A (fun a => a.availability) (d :: rest) (.fin 0) hav
      unfold meanOf sumList
      rw [List.length_map, List.length_cons]
      exact congrArg (fun z => A.toFixed2 (A.mul (A.div z _) (.fin 100))) e

theorem fetchTelemetrySummary_docs (A : Arith) (assetIds : JSVal) (repo : List Doc) :
    fetchTelemetrySummary A assetIds (repo.map Doc.toRaw) =
      (returnedAssets assetIds repo).map (fun d => summarise A d.toRaw) := by
  unfold fetchTelemetrySummary returnedAssets
  cases assetIds with
  | arr ids =>
    cases ids with
    | nil => simp
    | cons i rest =>
      simp only [List.length_cons, gt_iff_lt, Nat.zero_lt_succ, if_true, List.filter_map,
        List.map_map]
      rfl
  | undefined => simp
  | null => simp
  | bool b => simp
  | num n => simp
  | str x => simp
  | date t => simp
  | obj fs => simp

theorem returnedAssets_subset (assetIds : JSVal) (repo : List Doc) :
    ∀ d ∈ returnedAssets assetIds repo, d ∈ repo := by
  intro d hd
  unfold returnedAssets at hd
  cases assetIds with
  | arr ids =>
    simp only at hd
    split_ifs at hd
    · exact List.mem_of_mem_filter hd
    · exact hd
  | undefined => exact hd
  | null => exact hd
  | bool b => exact hd
  | num n => exact hd
  | str x => exact hd
  | date t => exact hd
  | obj fs => exact hd

/-! ## Claims -/

/-- C1, as stated, fails when the clock has moved between the two runs: the
second run rewrites `lastUpdated`, so the stored state is not the state left by
the first run. -/
theorem C1_counterexample :
    (∀ r ∈ [sampleRecord (.str "a1") "Ohio" 10 [sampleMetric 1000 1 20]],
      ∃ a, normaliseAsset refHost r = .ok a) ∧
    (ingestTelemetry refHost (fun _ => 7) []
        (.arr [sampleRecord (.str "a1") "Ohio" 10 [sampleMetric 1000 1 20]])).1 =
      [sampleDoc (.str "a1") "Ohio" 10 7 [⟨1000, .fin 1, .fin 20⟩]] ∧
    (ingestTelemetry refHost (fun _ => 9)
        (ingestTelemetry refHost (fun _ => 7) []
          (.arr [sampleRecord (.str "a1") "Ohio" 10 [sampleMetric 1000 1 20]])).1
        (.arr [sampleRecord (.str "a1") "Ohio" 10 [sampleMetric 1000 1 20]])).1 =
      [sampleDoc (.str "a1") "Ohio" 10 9 [⟨1000, .fin 1, .fin 20⟩]] ∧
    (ingestTelemetry refHost (fun _ => 9)
        (ingestTelemetry refHost (fun _ => 7) []
          (.arr [sampleRecord (.str "a1") "Ohio" 10 [sampleMetric 1000 1 20]])).1
        (.arr [sampleRecord (.str "a1") "Ohio" 10 [sampleMetric 1000 1 20]])).1 ≠
      (ingestTelemetry refHost (fun _ => 7) []
        (.arr [sampleRecord (.str "a1") "Ohio" 10 [sampleMetric 1000 1 20]])).1 := by
  refine ⟨?_, by decide, by decide, by decide⟩
  intro x hx
  rw [List.mem_singleton] at hx
  subst hx
  exact ⟨sampleAsset (.str "a1") "Ohio" 10 [⟨1000, .fin 1, .fin 20⟩], by decide⟩

/-- C1, in the form that holds on the code: for every initial store and every
batch of records that all normalise, running `ingestTelemetry` on the batch and
then again on the same batch makes the second run return `newAssets = 0` and
`metricsInserted = 0`, and after the second run every stored document has the
fields it had after the first run, `lastUpdated` excepted. -/
theorem C1_reingest_idempotent (H : Host) (clock1 clock2 : Nat → Int) (s : Store)
    (rs : List JSVal) (hall : ∀ r ∈ rs, ∃ a, normaliseAsset H r = .ok a) :
    (ingestTelemetry H clock2 (ingestTelemetry H clock1 s (.arr rs)).1 (.arr rs)).2 =
        .ok { assetsProcessed := rs.length, newAssets := 0, metricsInserted := 0 } ∧
      (ingestTelemetry H clock2 (ingestTelemetry H clock1 s (.arr rs)).1 (.arr rs)).1.map
          Doc.toAsset =
        (ingestTelemetry H clock1 s (.arr rs)).1.map Doc.toAsset := by
  obtain ⟨as, has, hf⟩ := normaliseAll_of_forall H rs hall
  rw [ingestTelemetry_of_normaliseAll H clock1 s rs as has]
  rw [ingestTelemetry_of_normaliseAll H clock2 _ rs as has]
  obtain ⟨h1, h2⟩ := ingestAssets_twice clock1 clock2 as s
  simp only
  rw [h2, hf.length_eq]
  exact ⟨rfl, h1⟩

theorem C1_reingest_idempotent_witness :
    (∀ r ∈ [sampleRecord (.str "a1") "Ohio" 10 [sampleMetric 1000 1 20],
        sampleRecord (.str "a1") "Texas" 20 [sampleMetric 1000 1 20, sampleMetric 2000 0 21]],
      ∃ a, normaliseAsset refHost r = .ok a) ∧
    (ingestTelemetry refHost (fun _ => 9)
        (ingestTelemetry refHost (fun _ => 7) []
          (.arr [sampleRecord (.str "a1") "Ohio" 10 [sampleMetric 1000 1 20],
            sampleRecord (.str "a1") "Texas" 20
              [sampleMetric 1000 1 20, sampleMetric 2000 0 21]])).1
        (.arr [sampleRecord (.str "a1") "Ohio" 10 [sampleMetric 1000 1 20],
          sampleRecord (.str "a1") "Texas" 20
            [sampleMetric 1000 1 20, sampleMetric 2000 0 21]])).2 =
      .ok { assetsProcessed := 2, newAssets := 0, metricsInserted := 0 } := by
  have hall : ∀ r ∈ [sampleRecord (.str "a1") "Ohio" 10 [sampleMetric 1000 1 20],
        sampleRecord (.str "a1") "Texas" 20 [sampleMetric 1000 1 20, sampleMetric 2000 0 21]],
      ∃ a, normaliseAsset refHost r = .ok a := by
    intro x hx
    simp only [List.mem_cons, List.mem_singleton, List.not_mem_nil, or_false] at hx
    rcases hx with rfl | rfl
    · exact ⟨sampleAsset (.str "a1") "Ohio" 10 [⟨1000, .fin 1, .fin 20⟩], by decide⟩
    · exact ⟨sampleAsset (.str "a1") "Texas" 20
        [⟨1000, .fin 1, .fin 20⟩, ⟨2000, .fin 0, .fin 21⟩], by decide⟩
  exact ⟨hall, (C1_reingest_idempotent refHost (fun _ => 7) (fun _ => 9) [] _ hall).1⟩

/-- C2: for a stored asset with N metrics, a one-record batch for its assetId
whose metrics carry K distinct timestamps that are not stored for the asset
(and any number that are) returns `metricsInserted = K` and `newAssets = 0`,
and the stored asset then has N + K metrics. -/
theorem C2_dedup_count (H : Host) (clock : Nat → Int) (s : Store) (r : JSVal) (a : Asset)
    (d : Doc) (hr : normaliseAsset H r = .ok a) (hd : findOne s a.assetId = some d) :
    (ingestTelemetry H clock s (.arr [r])).2 =
        .ok { assetsProcessed := 1, newAssets := 0,
              metricsInserted :=
                ((a.metrics.map Metric.key).toFinset \ (d.metrics.map Metric.key).toFinset).card } ∧
      ∃ d', findOne (ingestTelemetry H clock s (.arr [r])).1 a.assetId = some d' ∧
        d'.metrics.length = d.metrics.length +
          ((a.metrics.map Metric.key).toFinset \ (d.metrics.map Metric.key).toFinset).card := by
  have hK := keptBySpec_length d.metrics a.metrics []
  simp only [List.map_nil, List.toFinset_nil, Finset.union_empty] at hK
  have hn : normaliseAll H [r] = .ok [a] := by simp [normaliseAll, hr]
  have hrun := ingestLoop_of_normaliseAll H clock [r] [a] 0 s zeroResult hn
  simp only [ingestAssets, ingestAsset_found (clock 0) zeroResult hd] at hrun
  unfold ingestTelemetry
  simp only [hrun, hK]
  refine ⟨by simp [zeroResult], d.mergeWith a (clock 0), ?_, ?_⟩
  · have hid : (d.mergeWith a (clock 0)).assetId = a.assetId := by
      show d.assetId = a.assetId
      exact findOne_assetId hd
    have := findOne_save_same s (d.mergeWith a (clock 0)) d
      (by rw [hid]; exact hd)
    rw [hid] at this
    exact this
  · simp [Doc.mergeWith, hK]

theorem C2_dedup_count_witness :
    normaliseAsset refHost
        (sampleRecord (.str "a1") "Ohio" 10
          [sampleMetric 1000 (mkRat 1 2) 20, sampleMetric 3000 (mkRat 4 5) 22]) =
      .ok (sampleAsset (.str "a1") "Ohio" 10
        [⟨1000, .fin (mkRat 1 2), .fin 20⟩, ⟨3000, .fin (mkRat 4 5), .fin 22⟩]) ∧
    findOne
        [sampleDoc (.str "a1") "Ohio" 10 0
          [⟨1000, .fin (mkRat 1 2), .fin 20⟩, ⟨2000, .fin (mkRat 3 5), .fin 21⟩]]
        (.str "a1") =
      some (sampleDoc (.str "a1") "Ohio" 10 0
        [⟨1000, .fin (mkRat 1 2), .fin 20⟩, ⟨2000, .fin (mkRat 3 5), .fin 21⟩]) ∧
    (ingestTelemetry refHost (fun _ => 7)
        [sampleDoc (.str "a1") "Ohio" 10 0
          [⟨1000, .fin (mkRat 1 2), .fin 20⟩, ⟨2000, .fin (mkRat 3 5), .fin 21⟩]]
        (.arr [sampleRecord (.str "a1") "Ohio" 10
          [sampleMetric 1000 (mkRat 1 2) 20, sampleMetric 3000 (mkRat 4 5) 22]])).2 =
      .ok { assetsProcessed := 1, newAssets := 0, metricsInserted := 1 } := by
  refine ⟨by decide, by decide, ?_⟩
  have h := (C2_dedup_count refHost (fun _ => 7)
    [sampleDoc (.str "a1") "Ohio" 10 0
      [⟨1000, .fin (mkRat 1 2), .fin 20⟩, ⟨2000, .fin (mkRat 3 5), .fin 21⟩]]
    (sampleRecord (.str "a1") "Ohio" 10
      [sampleMetric 1000 (mkRat 1 2) 20, sampleMetric 3000 (mkRat 4 5) 22])
    (sampleAsset (.str "a1") "Ohio" 10
      [⟨1000, .fin (mkRat 1 2), .fin 20⟩, ⟨3000, .fin (mkRat 4 5), .fin 22⟩])
    (sampleDoc (.str "a1") "Ohio" 10 0
      [⟨1000, .fin (mkRat 1 2), .fin 20⟩, ⟨2000, .fin (mkRat 3 5), .fin 21⟩])
    (by decide) (by decide)).1
  rw [h]
  decide

/-- C3 fails on the code: ingesting, into the empty store, one record for a new
asset whose metrics repeat a timestamp succeeds and stores both metrics, so the
stored metric sequence has two equal timestamps. -/
theorem C3_create_stores_duplicate_timestamps :
    (ingestTelemetry refHost (fun _ => 7) []
        (.arr [sampleRecord (.str "a1") "Ohio" 10
          [sampleMetric 1000 1 20, sampleMetric 1000 0 25]])).2 =
      .ok { assetsProcessed := 1, newAssets := 1, metricsInserted := 2 } ∧
    ∃ d, findOne (ingestTelemetry refHost (fun _ => 7) []
        (.arr [sampleRecord (.str "a1") "Ohio" 10
          [sampleMetric 1000 1 20, sampleMetric 1000 0 25]])).1 (.str "a1") = some d ∧
      d.metrics.map Metric.timestamp = [1000, 1000] ∧
      ¬ (d.metrics.map Metric.timestamp).Nodup := by
  refine ⟨by decide, sampleDoc (.str "a1") "Ohio" 10 7
    [⟨1000, .fin 1, .fin 20⟩, ⟨1000, .fin 0, .fin 25⟩], by decide, by decide, by decide⟩

/-- C4: when a record is ingested for an assetId that is already stored (after
any earlier records of the batch), the stored metric sequence afterwards is the
previous sequence followed by exactly the incoming metrics whose key equals no
previously stored key and no earlier incoming key, in arrival order; the
previous sequence is a prefix of the new one. -/
theorem C4_merge_appends (H : Host) (clock : Nat → Int) (s : Store) (pre : List JSVal)
    (r : JSVal) (a : Asset) (d : Doc)
    (hpre : ∀ x ∈ pre, ∃ b, normaliseAsset H x = .ok b)
    (hr : normaliseAsset H r = .ok a)
    (hd : findOne (ingestTelemetry H clock s (.arr pre)).1 a.assetId = some d) :
    ∃ d', findOne (ingestTelemetry H clock s (.arr (pre ++ [r]))).1 a.assetId = some d' ∧
      d'.metrics = d.metrics ++ keptBySpec d.metrics [] a.metrics ∧
      d.metrics <+: d'.metrics := by
  obtain ⟨as, has, _⟩ := normaliseAll_of_forall H pre hpre
  have hn : normaliseAll H [r] = .ok [a] := by simp [normaliseAll, hr]
  have hall := normaliseAll_append H pre [r] as [a] has hn
  rw [ingestTelemetry_of_normaliseAll H clock s pre as has] at hd
  rw [ingestTelemetry_of_normaliseAll H clock s _ _ hall, ingestAssets_append]
  simp only [ingestAssets]
  obtain ⟨d', hd', _, _, hm⟩ := findOne_ingestAsset_self (clock (0 + as.length))
    (ingestAssets clock 0 s zeroResult as).1 (ingestAssets clock 0 s zeroResult as).2 a
  simp only at hd
  rw [hd] at hm
  simp only at hm
  exact ⟨d', hd', hm, by rw [hm]; exact List.prefix_append _ _⟩

theorem C4_merge_appends_witness :
    (∀ x ∈ ([] : List JSVal), ∃ b, normaliseAsset refHost x = .ok b) ∧
    ∃ d', findOne (ingestTelemetry refHost (fun _ => 7)
        [sampleDoc (.str "a1") "Ohio" 10 0 [⟨1000, .fin 1, .fin 20⟩, ⟨2000, .fin 1, .fin 21⟩]]
        (.arr ([] ++ [sampleRecord (.str "a1") "Ohio" 10
          [sampleMetric 3000 1 22, sampleMetric 1000 1 20, sampleMetric 3000 0 25]]))).1
        (sampleAsset (.str "a1") "Ohio" 10
          [⟨3000, .fin 1, .fin 22⟩, ⟨1000, .fin 1, .fin 20⟩, ⟨3000, .fin 0, .fin 25⟩]).assetId
          = some d' ∧
      d'.metrics = [⟨1000, .fin 1, .fin 20⟩, ⟨2000, .fin 1, .fin 21⟩, ⟨3000, .fin 1, .fin 22⟩] := by
  refine ⟨by simp, ?_⟩
  obtain ⟨d', h1, h2, _⟩ := C4_merge_appends refHost (fun _ => 7)
    [sampleDoc (.str "a1") "Ohio" 10 0 [⟨1000, .fin 1, .fin 20⟩, ⟨2000, .fin 1, .fin 21⟩]]
    [] (sampleRecord (.str "a1") "Ohio" 10
      [sampleMetric 3000 1 22, sampleMetric 1000 1 20, sampleMetric 3000 0 25])
    (sampleAsset (.str "a1") "Ohio" 10
      [⟨3000, .fin 1, .fin 22⟩, ⟨1000, .fin 1, .fin 20⟩, ⟨3000, .fin 0, .fin 25⟩])
    (sampleDoc (.str "a1") "Ohio" 10 0 [⟨1000, .fin 1, .fin 20⟩, ⟨2000, .fin 1, .fin 21⟩])
    (by simp) (by decide) (by decide)
  exact ⟨d', h1, by rw [h2]; decide⟩

/-- C5: when the first record that fails normalisation is at index i (the
records `pre` before it all normalise), `ingestTelemetry` fails with that
record's error and the store afterwards is exactly the store produced by the
successful run on records 0..i-1 alone. -/
theorem C5_fail_keeps_earlier (H : Host) (clock : Nat → Int) (s : Store) (pre : List JSVal)
    (r : JSVal) (post : List JSVal) (e : IngestError)
    (hpre : ∀ x ∈ pre, ∃ b, normaliseAsset H x = .ok b)
    (hr : normaliseAsset H r = .error e) :
    (ingestTelemetry H clock s (.arr (pre ++ r :: post))).2 = .error e ∧
    (∃ res, (ingestTelemetry H clock s (.arr pre)).2 = .ok res) ∧
    (ingestTelemetry H clock s (.arr (pre ++ r :: post))).1 =
      (ingestTelemetry H clock s (.arr pre)).1 := by
  obtain ⟨as, has, _⟩ := normaliseAll_of_forall H pre hpre
  rw [ingestTelemetry_of_normaliseAll H clock s pre as has]
  unfold ingestTelemetry
  simp only
  rw [ingestLoop_fails H clock pre as r post e 0 s zeroResult has hr]
  exact ⟨rfl, ⟨_, rfl⟩, rfl⟩

theorem C5_fail_keeps_earlier_witness :
    (∀ x ∈ [sampleRecord (.str "a1") "Ohio" 10 [sampleMetric 1000 1 20]],
      ∃ b, normaliseAsset refHost x = .ok b) ∧
    normaliseAsset refHost (.obj [("assetId", .str "a2")]) =
      .error (.missingNumericField (.str "a2") "capacityMWh") ∧
    (ingestTelemetry refHost (fun _ => 7) []
      (.arr ([sampleRecord (.str "a1") "Ohio" 10 [sampleMetric 1000 1 20]] ++
        .obj [("assetId", .str "a2")] ::
          [sampleRecord (.str "a3") "Ohio" 10 []]))).1 =
      [sampleDoc (.str "a1") "Ohio" 10 7 [⟨1000, .fin 1, .fin 20⟩]] := by
  have hpre : ∀ x ∈ [sampleRecord (.str "a1") "Ohio" 10 [sampleMetric 1000 1 20]],
      ∃ b, normaliseAsset refHost x = .ok b := by
    intro x hx
    rw [List.mem_singleton] at hx
    subst hx
    exact ⟨sampleAsset (.str "a1") "Ohio" 10 [⟨1000, .fin 1, .fin 20⟩], by decide⟩
  refine ⟨hpre, by decide, ?_⟩
  rw [(C5_fail_keeps_earlier refHost (fun _ => 7) []
    [sampleRecord (.str "a1") "Ohio" 10 [sampleMetric 1000 1 20]]
    (.obj [("assetId", .str "a2")]) [sampleRecord (.str "a3") "Ohio" 10 []]
    (.missingNumericField (.str "a2") "capacityMWh") hpre (by decide)).2.2]
  decide

/-- C6, as stated, fails on a record whose `assetId` is the number `0`: the
identifier is present and is not empty, the four numeric fields are finite and
`metrics` is the empty sequence, yet `normaliseAsset` rejects the record. -/
theorem C6_counterexample :
    (normaliseAsset refHost (sampleRecord (.num (.fin 0)) "Ohio" 10 []) =
      .error .missingAssetId) ∧
    ¬ failsBySpec refHost (sampleRecord (.num (.fin 0)) "Ohio" 10 []) := by
  refine ⟨by decide, ?_⟩
  unfold failsBySpec
  rintro (h | h | h)
  · revert h; decide
  · revert h; simp only [List.mem_cons, List.mem_singleton, List.not_mem_nil, or_false]
    rintro ⟨f, rfl | rfl | rfl | rfl, hf⟩ <;> revert hf <;> decide
  · obtain ⟨xs, hxs, m, hm, _⟩ := h
    have hget : (sampleRecord (.num (.fin 0)) "Ohio" 10 []).get "metrics" = .arr [] := by decide
    rw [hget] at hxs
    injection hxs with hxs
    subst hxs
    cases hm

/-- C6, in the form that holds on the code: for every object record, `normaliseAsset` fails if and
only if `assetId` is falsy (absent, `null`, the empty string, `0`, `NaN` or
`false`), or one of capacityMWh, powerRatingMW, roundTripEfficiency,
availability does not coerce to a finite number, or `metrics` is a sequence
containing an element that `normaliseMetric` rejects (not an object, invalid
timestamp, or a non-finite stateOfCharge or temperatureC); in every other case
it returns an asset. -/
theorem C6_normaliseAsset_fails_iff (H : Host) (r : JSVal)
    (hobj : r.truthy = true ∧ r.isObject = true) :
    ((∃ e, normaliseAsset H r = .error e) ↔
      ((r.get "assetId").truthy = false ∨
        (∃ field ∈ ["capacityMWh", "powerRatingMW", "roundTripEfficiency", "availability"],
          (H.Number (r.get field)).isFinite = false) ∨
        (∃ xs, r.get "metrics" = .arr xs ∧ ∃ m ∈ xs,
          (m.truthy = false ∨ m.isObject = false ∨ H.newDate (m.get "timestamp") = none ∨
            (H.Number (m.get "stateOfCharge")).isFinite = false ∨
            (H.Number (m.get "temperatureC")).isFinite = false)))) ∧
    ((∃ a, normaliseAsset H r = .ok a) ↔ ¬ ∃ e, normaliseAsset H r = .error e) := by
  refine ⟨?_, except_ok_iff_not_error _⟩
  have hnum := checkNumericFields_error_iff H (r.get "assetId")
    [("capacityMWh", r.get "capacityMWh"), ("powerRatingMW", r.get "powerRatingMW"),
      ("roundTripEfficiency", r.get "roundTripEfficiency"),
      ("availability", r.get "availability")]
  have hfields : (∃ fv ∈ [("capacityMWh", r.get "capacityMWh"),
        ("powerRatingMW", r.get "powerRatingMW"),
        ("roundTripEfficiency", r.get "roundTripEfficiency"),
        ("availability", r.get "availability")], (H.Number fv.2).isFinite = false) ↔
      (∃ field ∈ ["capacityMWh", "powerRatingMW", "roundTripEfficiency", "availability"],
        (H.Number (r.get field)).isFinite = false) := by
    simp
  have hmet : ∀ xs : List JSVal,
      (∃ e, normaliseMetrics H (r.get "assetId") xs = .error e) ↔
        ∃ m ∈ xs, (m.truthy = false ∨ m.isObject = false ∨
          H.newDate (m.get "timestamp") = none ∨
          (H.Number (m.get "stateOfCharge")).isFinite = false ∨
          (H.Number (m.get "temperatureC")).isFinite = false) := by
    intro xs
    rw [normaliseMetrics_error_iff]
    constructor
    · rintro ⟨m, hm, he⟩
      exact ⟨m, hm, (normaliseMetric_error_iff H m _).1 he⟩
    · rintro ⟨m, hm, he⟩
      exact ⟨m, hm, (normaliseMetric_error_iff H m _).2 he⟩
  rw [← hfields, ← hnum]
  unfold normaliseAsset
  simp only [hobj.1, hobj.2, Bool.not_true, Bool.or_self, Bool.false_eq_true, if_false]
  cases hid : (r.get "assetId").truthy
  · simp
  · simp only [Bool.not_true, Bool.false_eq_true, if_false, false_or]
    cases hc : checkNumericFields H (r.get "assetId")
        [("capacityMWh", r.get "capacityMWh"), ("powerRatingMW", r.get "powerRatingMW"),
          ("roundTripEfficiency", r.get "roundTripEfficiency"),
          ("availability", r.get "availability")] with
    | error e => simp
    | ok u =>
      simp only [exists_false, false_or]
      by_cases hund : r.get "metrics" = .undefined
      · simp [hund, normaliseMetrics]
      · simp only [hund, if_false]
        cases hm : r.get "metrics" with
        | arr xs =>
          simp only [JSVal.arr.injEq, exists_eq_left']
          rw [← hmet xs]
          cases hx : normaliseMetrics H (r.get "assetId") xs <;> simp
        | undefined => exact absurd hm hund
        | null => simp
        | bool b => simp
        | num n => simp
        | str x => simp
        | date t => simp
        | obj fs => simp

theorem C6_normaliseAsset_fails_iff_witness :
    ((sampleRecord (.str "a1") "Ohio" 10 [.num (.fin 5)]).truthy = true ∧
      (sampleRecord (.str "a1") "Ohio" 10 [.num (.fin 5)]).isObject = true) ∧
    ∃ e, normaliseAsset refHost (sampleRecord (.str "a1") "Ohio" 10 [.num (.fin 5)]) =
      .error e := by
  refine ⟨⟨rfl, rfl⟩, ?_⟩
  apply (C6_normaliseAsset_fails_iff refHost
    (sampleRecord (.str "a1") "Ohio" 10 [.num (.fin 5)]) ⟨rfl, rfl⟩).1.2
  refine Or.inr (Or.inr ⟨[.num (.fin 5)], by decide, .num (.fin 5), by simp, Or.inr (Or.inl rfl)⟩)

/-- C7: after a successful run, the asset of every assetId occurring in the
batch is stored with site, region, capacityMWh, powerRatingMW,
roundTripEfficiency, availability and status equal to the normalised values of
the last record of the batch with that assetId, whatever was stored before. -/
theorem C7_last_write_wins (H : Host) (clock : Nat → Int) (s : Store) (pre : List JSVal)
    (r : JSVal) (post : List JSVal) (a : Asset)
    (hall : ∀ x ∈ pre ++ r :: post, ∃ b, normaliseAsset H x = .ok b)
    (hr : normaliseAsset H r = .ok a)
    (hlast : ∀ x ∈ post, ∀ b, normaliseAsset H x = .ok b → b.assetId ≠ a.assetId) :
    (∃ res, (ingestTelemetry H clock s (.arr (pre ++ r :: post))).2 = .ok res) ∧
    ∃ d, findOne (ingestTelemetry H clock s (.arr (pre ++ r :: post))).1 a.assetId = some d ∧
      d.site = a.site ∧ d.region = a.region ∧ d.capacityMWh = a.capacityMWh ∧
      d.powerRatingMW = a.powerRatingMW ∧ d.roundTripEfficiency = a.roundTripEfficiency ∧
      d.availability = a.availability ∧ d.status = a.status := by
  obtain ⟨as, has, _⟩ := normaliseAll_of_forall H pre
    (fun x hx => hall x (List.mem_append_left _ hx))
  obtain ⟨bs, hbs, _⟩ := normaliseAll_of_forall H post
    (fun x hx => hall x (List.mem_append_right _ (List.mem_cons_of_mem _ hx)))
  have hrp : normaliseAll H (r :: post) = .ok (a :: bs) := by
    simp [normaliseAll, hr, hbs]
  have hn := normaliseAll_append H pre (r :: post) as (a :: bs) has hrp
  rw [ingestTelemetry_of_normaliseAll H clock s _ _ hn]
  refine ⟨⟨_, rfl⟩, ?_⟩
  have hpost : ∀ b ∈ bs, b.assetId ≠ a.assetId := by
    intro b hb
    obtain ⟨x, hx, hxb⟩ := normaliseAll_mem H post bs hbs b hb
    exact hlast x hx b hxb
  exact findOne_ingestAssets_last clock as a bs 0 s zeroResult hpost

theorem C7_last_write_wins_witness :
    (∀ x ∈ [sampleRecord (.str "a1") "Ohio" 10 []] ++
        sampleRecord (.str "a1") "Texas" 20 [] :: [sampleRecord (.str "a2") "Utah" 30 []],
      ∃ b, normaliseAsset refHost x = .ok b) ∧
    ∃ d, findOne (ingestTelemetry refHost (fun _ => 7)
        [sampleDoc (.str "a1") "Iowa" 5 0 []]
        (.arr ([sampleRecord (.str "a1") "Ohio" 10 []] ++
          sampleRecord (.str "a1") "Texas" 20 [] :: [sampleRecord (.str "a2") "Utah" 30 []]))).1
        (sampleAsset (.str "a1") "Texas" 20 []).assetId = some d ∧
      d.region = .str "Texas" ∧ d.capacityMWh = .fin 20 := by
  have hall : ∀ x ∈ [sampleRecord (.str "a1") "Ohio" 10 []] ++
        sampleRecord (.str "a1") "Texas" 20 [] :: [sampleRecord (.str "a2") "Utah" 30 []],
      ∃ b, normaliseAsset refHost x = .ok b := by
    intro x hx
    simp only [List.singleton_append, List.mem_cons, List.mem_singleton, List.not_mem_nil,
      or_false] at hx
    rcases hx with rfl | rfl | rfl
    · exact ⟨sampleAsset (.str "a1") "Ohio" 10 [], by decide⟩
    · exact ⟨sampleAsset (.str "a1") "Texas" 20 [], by decide⟩
    · exact ⟨sampleAsset (.str "a2") "Utah" 30 [], by decide⟩
  refine ⟨hall, ?_⟩
  obtain ⟨_, d, h1, _, h2, h3, _⟩ := C7_last_write_wins refHost (fun _ => 7)
    [sampleDoc (.str "a1") "Iowa" 5 0 []] [sampleRecord (.str "a1") "Ohio" 10 []]
    (sampleRecord (.str "a1") "Texas" 20 []) [sampleRecord (.str "a2") "Utah" 30 []]
    (sampleAsset (.str "a1") "Texas" 20 []) hall (by decide) (by
      intro x hx b hb
      rw [List.mem_singleton] at hx
      subst hx
      have : normaliseAsset refHost (sampleRecord (.str "a2") "Utah" 30 []) =
          .ok (sampleAsset (.str "a2") "Utah" 30 []) := by decide
      rw [this] at hb
      injection hb with hb
      subst hb
      decide)
  exact ⟨d, h1, h2, h3⟩

/-- C8: on a batch of records that all normalise, `ingestTelemetry` returns
`assetsProcessed` equal to the number of records and `newAssets` equal to the
number of distinct assetIds of the batch that were not in the store before the
run. -/
theorem C8_counters (H : Host) (clock : Nat → Int) (s : Store) (rs : List JSVal)
    (hall : ∀ r ∈ rs, ∃ a, normaliseAsset H r = .ok a) :
    ∃ res, (ingestTelemetry H clock s (.arr rs)).2 = .ok res ∧
      res.assetsProcessed = rs.length ∧
      res.newAssets =
        ((rs.map (fun r => r.get "assetId")).toFinset.filter
          (fun id => id ∉ s.map Doc.assetId)).card := by
  obtain ⟨as, has, hf⟩ := normaliseAll_of_forall H rs hall
  rw [ingestTelemetry_of_normaliseAll H clock s rs as has]
  obtain ⟨h1, h2⟩ := ingestAssets_counts clock as 0 s zeroResult
  refine ⟨_, rfl, ?_, ?_⟩
  · rw [h1, ← hf.length_eq]
    simp [zeroResult]
  · rw [h2, normaliseAll_map_assetId H rs as has]
    simp [zeroResult]

theorem C8_counters_witness :
    (∀ r ∈ [sampleRecord (.str "a1") "Ohio" 10 [], sampleRecord (.str "a2") "Utah" 30 [],
        sampleRecord (.str "a2") "Utah" 31 []],
      ∃ a, normaliseAsset refHost r = .ok a) ∧
    ∃ res, (ingestTelemetry refHost (fun _ => 7) [sampleDoc (.str "a1") "Iowa" 5 0 []]
        (.arr [sampleRecord (.str "a1") "Ohio" 10 [], sampleRecord (.str "a2") "Utah" 30 [],
          sampleRecord (.str "a2") "Utah" 31 []])).2 = .ok res ∧
      res.assetsProcessed = 3 ∧ res.newAssets = 1 := by
  have hall : ∀ r ∈ [sampleRecord (.str "a1") "Ohio" 10 [], sampleRecord (.str "a2") "Utah" 30 [],
        sampleRecord (.str "a2") "Utah" 31 []],
      ∃ a, normaliseAsset refHost r = .ok a := by
    intro x hx
    simp only [List.mem_cons, List.mem_singleton, List.not_mem_nil, or_false] at hx
    rcases hx with rfl | rfl | rfl
    · exact ⟨sampleAsset (.str "a1") "Ohio" 10 [], by decide⟩
    · exact ⟨sampleAsset (.str "a2") "Utah" 30 [], by decide⟩
    · exact ⟨sampleAsset (.str "a2") "Utah" 31 [], by decide⟩
  refine ⟨hall, ?_⟩
  obtain ⟨res, h1, h2, h3⟩ := C8_counters refHost (fun _ => 7)
    [sampleDoc (.str "a1") "Iowa" 5 0 []]
    [sampleRecord (.str "a1") "Ohio" 10 [], sampleRecord (.str "a2") "Utah" 30 [],
      sampleRecord (.str "a2") "Utah" 31 []] hall
  refine ⟨res, h1, h2, ?_⟩
  rw [h3]
  decide

/-- C9: for every run of `ingestTelemetry`, failed or not, every document
stored before the run is still stored after it, at the same place and under the
same assetId, and a document whose assetId is the assetId of no record of the
batch is unchanged in every field, `lastUpdated` included. -/
theorem C9_frame (H : Host) (clock : Nat → Int) (s : Store) (records : JSVal)
    (i : Nat) (d : Doc) (h : s[i]? = some d) :
    ∃ d', (ingestTelemetry H clock s records).1[i]? = some d' ∧ d'.assetId = d.assetId ∧
      ((∀ rs, records = .arr rs → ∀ r ∈ rs, r.get "assetId" ≠ d.assetId) → d' = d) := by
  cases records with
  | arr rs =>
    obtain ⟨d', h1, h2, h3⟩ := ingestLoop_getElem? H clock rs 0 s zeroResult i d h
    exact ⟨d', h1, h2, fun hall => h3 (hall rs rfl)⟩
  | undefined => exact ⟨d, h, rfl, fun _ => rfl⟩
  | null => exact ⟨d, h, rfl, fun _ => rfl⟩
  | bool b => exact ⟨d, h, rfl, fun _ => rfl⟩
  | num n => exact ⟨d, h, rfl, fun _ => rfl⟩
  | str x => exact ⟨d, h, rfl, fun _ => rfl⟩
  | date t => exact ⟨d, h, rfl, fun _ => rfl⟩
  | obj fs => exact ⟨d, h, rfl, fun _ => rfl⟩

theorem C9_frame_witness :
    [sampleDoc (.str "a1") "Iowa" 5 0 [], sampleDoc (.str "a2") "Utah" 30 1 []][1]? =
      some (sampleDoc (.str "a2") "Utah" 30 1 []) ∧
    (ingestTelemetry refHost (fun _ => 7)
        [sampleDoc (.str "a1") "Iowa" 5 0 [], sampleDoc (.str "a2") "Utah" 30 1 []]
        (.arr [sampleRecord (.str "a1") "Ohio" 10 [sampleMetric 1000 1 20],
          .obj [("assetId", .str "a3")]])).1[1]? =
      some (sampleDoc (.str "a2") "Utah" 30 1 []) := by
  refine ⟨rfl, ?_⟩
  obtain ⟨d', h1, _, h3⟩ := C9_frame refHost (fun _ => 7)
    [sampleDoc (.str "a1") "Iowa" 5 0 [], sampleDoc (.str "a2") "Utah" 30 1 []]
    (.arr [sampleRecord (.str "a1") "Ohio" 10 [sampleMetric 1000 1 20],
      .obj [("assetId", .str "a3")]]) 1 (sampleDoc (.str "a2") "Utah" 30 1 []) rfl
  rw [h1, h3]
  intro rs hrs r hr
  injection hrs with hrs
  subst hrs
  simp only [List.mem_cons, List.mem_singleton, List.not_mem_nil, or_false] at hr
  rcases hr with rfl | rfl <;> decide

/-- C10 (as stated, refuted): in double arithmetic the capacities `1e16`, `1`
and `1` accumulate to `1e16` (each `1e16 + 1` rounds back to `1e16`), so
`calculateDashboardMetrics` returns `totalCapacityMWh = 1e16` although the exact
sum of the capacities is `10000000000000002`: the total is off by `2`, not
within `0.005` of the exact sum. -/
theorem C10_counterexample :
    (calculateDashboardMetrics doubleArith (bigCapacityDocs.map Doc.toRaw)).map
        (fun m => m.totalCapacityMWh) = .ok (.fin 10000000000000000) ∧
      exactCapacitySum bigCapacityDocs = 10000000000000002 ∧
      ¬ (|(10000000000000000 : ℚ) - exactCapacitySum bigCapacityDocs| ≤ 5 / 1000) := by
  have hs : exactCapacitySum bigCapacityDocs = 10000000000000002 := by
    simp only [exactCapacitySum, bigCapacityDocs, List.map_cons, List.map_nil, List.sum_cons,
      List.sum_nil]
    norm_num
  refine ⟨by decide, hs, ?_⟩
  rw [hs]
  norm_num [abs_le]

/-- C10 (amended): for every non-empty list of stored assets whose capacities
and availabilities are not NaN, `calculateDashboardMetrics` returns, with
`totalCapacityMWh` equal to the sum of the capacities accumulated from 0 in list
order in the arithmetic of the number operations and then passed through
`Number(x.toFixed(2))`, and `averageAvailability` equal to that arithmetic's
mean of the availabilities (sum from 0 in list order divided by the count)
times 100, passed through `Number(x.toFixed(2))`. -/
theorem C10_totals (A : Arith) (assets : List Doc) (hne : assets ≠ [])
    (hcap : ∀ a ∈ assets, a.capacityMWh ≠ .nan)
    (hav : ∀ a ∈ assets, a.availability ≠ .nan) :
    ∃ m, calculateDashboardMetrics A (assets.map Doc.toRaw) = .ok m ∧
      m.totalCapacityMWh = A.toFixed2 (sumList A (assets.map (fun a => a.capacityMWh))) ∧
      m.averageAvailability =
        A.toFixed2 (A.mul (meanOf A (assets.map (fun a => a.availability))) (.fin 100)) :=
  calculateDashboardMetrics_totals A assets hne hcap hav

theorem C10_totals_witness :
    [sampleDoc (.str "a1") "X" 10 0 [], sampleDoc (.str "a2") "Y" 20 0 []] ≠ [] ∧
    (∀ a ∈ [sampleDoc (.str "a1") "X" 10 0 [], sampleDoc (.str "a2") "Y" 20 0 []],
      a.capacityMWh ≠ .nan) ∧
    (∀ a ∈ [sampleDoc (.str "a1") "X" 10 0 [], sampleDoc (.str "a2") "Y" 20 0 []],
      a.availability ≠ .nan) ∧
    ∃ m, calculateDashboardMetrics refArith
        ([sampleDoc (.str "a1") "X" 10 0 [], sampleDoc (.str "a2") "Y" 20 0 []].map
          Doc.toRaw) = .ok m ∧
      m.totalCapacityMWh = refArith.toFixed2 (sumList refArith
        ([sampleDoc (.str "a1") "X" 10 0 [], sampleDoc (.str "a2") "Y" 20 0 []].map
          (fun a => a.capacityMWh))) ∧
      m.averageAvailability = refArith.toFixed2 (refArith.mul (meanOf refArith
        ([sampleDoc (.str "a1") "X" 10 0 [], sampleDoc (.str "a2") "Y" 20 0 []].map
          (fun a => a.availability))) (.fin 100)) :=
  ⟨by decide, by decide, by decide,
    C10_totals refArith [sampleDoc (.str "a1") "X" 10 0 [], sampleDoc (.str "a2") "Y" 20 0 []]
      (by decide) (by decide) (by decide)⟩

/-- C11: `capacityByRegion` returned by `calculateDashboardMetrics` on stored
assets (with finite capacities) has exactly one entry per distinct region of
the list, the entries are in the order in which the regions first appear in the
list, and each entry's capacityMWh is the sum, in list order, of capacityMWh
over the assets of that region. -/
theorem C11_capacityByRegion (A : Arith) (assets : List Doc)
    (hfin : ∀ a ∈ assets, a.capacityMWh.isFinite = true)
    (hadd : ∀ x q, x ≠ .nan → A.add x (.fin q) ≠ .nan) :
    ∃ m, calculateDashboardMetrics A (assets.map Doc.toRaw) = .ok m ∧
      (m.capacityByRegion.map (fun e => e.region)).Nodup ∧
      (∀ r, r ∈ m.capacityByRegion.map (fun e => e.region) ↔
        r ∈ assets.map (fun a => a.region)) ∧
      (m.capacityByRegion.map (fun e => e.region)).Pairwise
        (fun r1 r2 => (assets.map (fun a => a.region)).indexOf r1 <
          (assets.map (fun a => a.region)).indexOf r2) ∧
      ∀ e ∈ m.capacityByRegion, e.capacityMWh =
        sumList A ((assets.filter (fun a => decide (a.region = e.region))).map
          (fun a => a.capacityMWh)) := by
  obtain ⟨m, hm, hcap, _⟩ := calculateDashboardMetrics_docs A assets
  have hkeys : m.capacityByRegion.map (fun e => e.region) =
      keysFold [] (assets.map (fun a => a.region)) := by
    rw [hcap, List.map_map]
    have := keys_foldl_mapSet (fun d : Doc => d.region)
      (fun (d : Doc) (o : Option JSNum) => A.add (orZero o) (orZero (some d.capacityMWh)))
      assets ([] : JSMap JSVal JSNum)
    exact this
  obtain ⟨h1, h2, h3⟩ := keysFold_nil_spec (assets.map (fun a => a.region))
  refine ⟨m, hm, by rw [hkeys]; exact h1, by rw [hkeys]; exact h2, by rw [hkeys]; exact h3, ?_⟩
  intro e he
  rw [hcap] at he
  obtain ⟨entry, hentry, rfl⟩ := List.mem_map.1 he
  have hnd : ((assets.foldl (regionStep A) []).map Prod.fst).Nodup := by
    have : (assets.foldl (regionStep A) []).map Prod.fst =
        m.capacityByRegion.map (fun e => e.region) := by
      rw [hcap, List.map_map]; rfl
    rw [this, hkeys]
    exact h1
  have hget := mapGet_of_mem _ entry.1 entry.2 hnd hentry
  have hfold := mapGet_foldl_mapSet (fun d : Doc => d.region)
    (fun (d : Doc) (o : Option JSNum) => A.add (orZero o) (orZero (some d.capacityMWh)))
    entry.1 assets ([] : JSMap JSVal JSNum)
  have hget2 : mapGet (assets.foldl (fun m x => mapSet m x.region
      (A.add (orZero (mapGet m x.region)) (orZero (some x.capacityMWh)))) []) entry.1 =
      some entry.2 := hget
  rw [hfold] at hget2
  exact regionFold_none A hadd _
    (fun d hd => hfin d (List.mem_of_mem_filter hd)) entry.2 hget2

theorem C11_capacityByRegion_witness :
    (∀ a ∈ [sampleDoc (.str "a1") "X" 10 0 [], sampleDoc (.str "a2") "Y" 20 0 [],
        sampleDoc (.str "a3") "X" 5 0 []], a.capacityMWh.isFinite = true) ∧
    (∀ x q, x ≠ .nan → refArith.add x (.fin q) ≠ .nan) ∧
    (calculateDashboardMetrics refArith
        ([sampleDoc (.str "a1") "X" 10 0 [], sampleDoc (.str "a2") "Y" 20 0 [],
          sampleDoc (.str "a3") "X" 5 0 []].map Doc.toRaw)).map
        (fun m => m.capacityByRegion) =
      .ok [{ region := .str "X", capacityMWh := .fin 15 },
           { region := .str "Y", capacityMWh := .fin 20 }] ∧
    ∃ m, calculateDashboardMetrics refArith
        ([sampleDoc (.str "a1") "X" 10 0 [], sampleDoc (.str "a2") "Y" 20 0 [],
          sampleDoc (.str "a3") "X" 5 0 []].map Doc.toRaw) = .ok m ∧
      (m.capacityByRegion.map (fun e => e.region)).Nodup := by
  have h1 : ∀ a ∈ [sampleDoc (.str "a1") "X" 10 0 [], sampleDoc (.str "a2") "Y" 20 0 [],
      sampleDoc (.str "a3") "X" 5 0 []], a.capacityMWh.isFinite = true := by decide
  obtain ⟨m, hm, hnd, _⟩ := C11_capacityByRegion refArith
    [sampleDoc (.str "a1") "X" 10 0 [], sampleDoc (.str "a2") "Y" 20 0 [],
      sampleDoc (.str "a3") "X" 5 0 []] h1 refArith_add_ne_nan
  exact ⟨h1, refArith_add_ne_nan, by decide, m, hm, hnd⟩

/-- C12: `stateOfChargeTrend` returned by `calculateDashboardMetrics` on stored
assets has exactly one point per distinct metric timestamp occurring in any
asset, the points are sorted strictly ascending by timestamp, and each point's
averageStateOfCharge is the mean of stateOfCharge over all metrics of all
assets with that exact timestamp, rounded to 2 decimal places. -/
theorem C12_stateOfChargeTrend (A : Arith) (assets : List Doc)
    (hsoc : ∀ a ∈ assets, ∀ x ∈ a.metrics, x.stateOfCharge ≠ .nan) :
    ∃ m, calculateDashboardMetrics A (assets.map Doc.toRaw) = .ok m ∧
      (∀ t, t ∈ m.stateOfChargeTrend.map (fun p => p.timestamp) ↔
        ∃ a ∈ assets, ∃ x ∈ a.metrics, toISOString x.timestamp = t) ∧
      (m.stateOfChargeTrend.map (fun p => p.timestamp)).Sorted (fun s t => s < t) ∧
      ∀ p ∈ m.stateOfChargeTrend, p.averageStateOfCharge =
        A.toFixed2 (meanOf A (((allMetrics assets).filter
          (fun x => decide (toISOString x.timestamp = p.timestamp))).map
            (fun x => x.stateOfCharge))) := by
  obtain ⟨m, hm, _, htrend⟩ := calculateDashboardMetrics_docs A assets
  obtain ⟨h1, h2, _⟩ := keysFold_nil_spec ((allMetrics assets).map (fun x => x.timestamp))
  have hkeys := trendKeys assets
  have hperm := List.perm_insertionSort TrendPoint.le
    (((allMetrics assets).foldl trendStep []).map (trendPoint A))
  rw [← htrend] at hperm
  have hts : (m.stateOfChargeTrend.map (fun p => p.timestamp)).Perm
      (keysFold [] ((allMetrics assets).map (fun x => x.timestamp))) := by
    have := hperm.map (fun p => p.timestamp)
    rw [List.map_map] at this
    rw [← hkeys]
    exact this
  refine ⟨m, hm, ?_, ?_, ?_⟩
  · intro t
    rw [hts.mem_iff, h2 t, List.mem_map]
    constructor
    · rintro ⟨x, hx, rfl⟩
      obtain ⟨d, hd, hxd⟩ := (mem_allMetrics x assets).1 hx
      exact ⟨d, hd, x, hxd, rfl⟩
    · rintro ⟨d, hd, x, hxd, rfl⟩
      exact ⟨x, (mem_allMetrics x assets).2 ⟨d, hd, hxd⟩, rfl⟩
  · haveI : IsTotal TrendPoint TrendPoint.le := ⟨fun a b => Int.le_total _ _⟩
    haveI : IsTrans TrendPoint TrendPoint.le := ⟨fun a b c hab hbc => Int.le_trans hab hbc⟩
    have hsorted := List.sorted_insertionSort TrendPoint.le
      (((allMetrics assets).foldl trendStep []).map (trendPoint A))
    rw [← htrend] at hsorted
    have hle : (m.stateOfChargeTrend.map (fun p => p.timestamp)).Sorted (fun s t => s ≤ t) :=
      List.pairwise_map.2 hsorted
    exact hle.lt_of_le (hts.nodup_iff.2 h1)
  · intro p hp
    have hp2 : p ∈ ((allMetrics assets).foldl trendStep []).map (trendPoint A) :=
      hperm.mem_iff.1 hp
    obtain ⟨entry, hentry, rfl⟩ := List.mem_map.1 hp2
    have hnd : (((allMetrics assets).foldl trendStep []).map Prod.fst).Nodup := by
      rw [hkeys]; exact h1
    have hget := mapGet_of_mem _ entry.1 entry.2 hnd hentry
    have hfold := mapGet_foldl_mapSet (fun x : Metric => x.timestamp)
      (fun (x : Metric) (o : Option (List JSNum)) =>
        (Option.getD o []) ++ [orZero (some x.stateOfCharge)])
      entry.1 (allMetrics assets) ([] : JSMap Int (List JSNum))
    have hget2 : mapGet ((allMetrics assets).foldl (fun m x => mapSet m x.timestamp
        ((mapGet m x.timestamp).getD [] ++ [orZero (some x.stateOfCharge)])) []) entry.1 =
        some entry.2 := hget
    rw [hfold] at hget2
    obtain ⟨hvs, hne⟩ := trendFold_none _ entry.2 hget2
    have hmap : ((allMetrics assets).filter (fun x => decide (x.timestamp = entry.1))).map
        (fun x => orZero (some x.stateOfCharge)) =
        ((allMetrics assets).filter (fun x => decide (x.timestamp = entry.1))).map
          (fun x => x.stateOfCharge) := by
      apply List.map_congr_left
      intro x hx
      obtain ⟨d, hd, hxd⟩ := (mem_allMetrics x assets).1 (List.mem_of_mem_filter hx)
      exact orZero_some_of_ne_nan (hsoc d hd x hxd)
    rw [hmap] at hvs
    have hlen : entry.2.length > 0 := by
      rw [hvs, List.length_map]
      exact List.length_pos.2 hne
    show (trendPoint A entry).averageStateOfCharge = _
    unfold trendPoint
    simp only [hlen, if_true]
    rw [hvs]
    rfl

theorem C12_stateOfChargeTrend_witness :
    (∀ a ∈ [sampleDoc (.str "a1") "X" 10 0 [⟨3000, .fin 0, .fin 20⟩, ⟨1000, .fin 1, .fin 20⟩],
        sampleDoc (.str "a2") "Y" 20 0 [⟨1000, .fin 0, .fin 20⟩, ⟨2000, .fin 1, .fin 20⟩]],
      ∀ x ∈ a.metrics, x.stateOfCharge ≠ .nan) ∧
    (calculateDashboardMetrics refArith
        ([sampleDoc (.str "a1") "X" 10 0 [⟨3000, .fin 0, .fin 20⟩, ⟨1000, .fin 1, .fin 20⟩],
          sampleDoc (.str "a2") "Y" 20 0 [⟨1000, .fin 0, .fin 20⟩, ⟨2000, .fin 1, .fin 20⟩]].map
          Doc.toRaw)).map (fun m => m.stateOfChargeTrend) =
      .ok [{ timestamp := 1000, averageStateOfCharge := .fin (mkRat 1 2) },
           { timestamp := 2000, averageStateOfCharge := .fin 1 },
           { timestamp := 3000, averageStateOfCharge := .fin 0 }] ∧
    ∃ m, calculateDashboardMetrics refArith
        ([sampleDoc (.str "a1") "X" 10 0 [⟨3000, .fin 0, .fin 20⟩, ⟨1000, .fin 1, .fin 20⟩],
          sampleDoc (.str "a2") "Y" 20 0 [⟨1000, .fin 0, .fin 20⟩, ⟨2000, .fin 1, .fin 20⟩]].map
          Doc.toRaw) = .ok m ∧
      (m.stateOfChargeTrend.map (fun p => p.timestamp)).Sorted (fun s t => s < t) := by
  have h1 : ∀ a ∈ [sampleDoc (.str "a1") "X" 10 0
        [⟨3000, .fin 0, .fin 20⟩, ⟨1000, .fin 1, .fin 20⟩],
      sampleDoc (.str "a2") "Y" 20 0 [⟨1000, .fin 0, .fin 20⟩, ⟨2000, .fin 1, .fin 20⟩]],
      ∀ x ∈ a.metrics, x.stateOfCharge ≠ .nan := by decide
  obtain ⟨m, hm, _, hs, _⟩ := C12_stateOfChargeTrend refArith
    [sampleDoc (.str "a1") "X" 10 0 [⟨3000, .fin 0, .fin 20⟩, ⟨1000, .fin 1, .fin 20⟩],
      sampleDoc (.str "a2") "Y" 20 0 [⟨1000, .fin 0, .fin 20⟩, ⟨2000, .fin 1, .fin 20⟩]] h1
  exact ⟨h1, by decide, m, hm, hs⟩

/-- C13: the summaries `fetchTelemetrySummary` produces are, one for one and in
order, those of the assets returned by the repository, and the summary of each
returned asset has its assetId, site and region, metricsCount equal to the
length of its metric sequence, latestTimestamp equal to the maximum timestamp
among its metrics (null when it has none), and averageStateOfCharge equal to
the mean of stateOfCharge over its metrics (null when it has none). -/
theorem C13_fetchTelemetrySummary (A : Arith) (assetIds : JSVal) (repo : List Doc)
    (hsoc : ∀ d ∈ repo, ∀ x ∈ d.metrics, x.stateOfCharge ≠ .nan) :
    List.Forall₂
      (fun (d : Doc) (s : Summary) =>
        s.assetId = d.assetId ∧ s.site = d.site ∧ s.region = d.region ∧
        s.metricsCount = d.metrics.length ∧
        (d.metrics = [] → s.latestTimestamp = none ∧ s.averageStateOfCharge = none) ∧
        (d.metrics ≠ [] →
          (∃ t, s.latestTimestamp = some (some t) ∧
            t ∈ d.metrics.map (fun x => x.timestamp) ∧ ∀ x ∈ d.metrics, x.timestamp ≤ t) ∧
          s.averageStateOfCharge =
            some (meanOf A (d.metrics.map (fun x => x.stateOfCharge)))))
      (returnedAssets assetIds repo)
      (fetchTelemetrySummary A assetIds (repo.map Doc.toRaw)) := by
  rw [fetchTelemetrySummary_docs, List.forall₂_map_right_iff, List.forall₂_same]
  intro d hd
  obtain ⟨h1, h2, h3, h4⟩ := summarise_doc A d
    (hsoc d (returnedAssets_subset assetIds repo d hd))
  exact ⟨h1, rfl, rfl, h2, h3, h4⟩

theorem C13_fetchTelemetrySummary_witness :
    (∀ d ∈ [sampleDoc (.str "a1") "X" 10 0 [⟨3000, .fin 0, .fin 20⟩, ⟨1000, .fin 1, .fin 20⟩],
        sampleDoc (.str "a2") "Y" 20 0 [], sampleDoc (.str "a3") "Z" 30 0 []],
      ∀ x ∈ d.metrics, x.stateOfCharge ≠ .nan) ∧
    returnedAssets (.arr [.str "a2", .str "a1"])
        [sampleDoc (.str "a1") "X" 10 0 [⟨3000, .fin 0, .fin 20⟩, ⟨1000, .fin 1, .fin 20⟩],
          sampleDoc (.str "a2") "Y" 20 0 [], sampleDoc (.str "a3") "Z" 30 0 []] =
      [sampleDoc (.str "a1") "X" 10 0 [⟨3000, .fin 0, .fin 20⟩, ⟨1000, .fin 1, .fin 20⟩],
        sampleDoc (.str "a2") "Y" 20 0 []] ∧
    fetchTelemetrySummary refArith (.arr [.str "a2", .str "a1"])
        ([sampleDoc (.str "a1") "X" 10 0 [⟨3000, .fin 0, .fin 20⟩, ⟨1000, .fin 1, .fin 20⟩],
          sampleDoc (.str "a2") "Y" 20 0 [], sampleDoc (.str "a3") "Z" 30 0 []].map
          Doc.toRaw) =
      [{ assetId := .str "a1", site := .str "Glenn", region := .str "X", metricsCount := 2,
         latestTimestamp := some (some 3000),
         averageStateOfCharge := some (.fin (mkRat 1 2)) },
       { assetId := .str "a2", site := .str "Glenn", region := .str "Y", metricsCount := 0,
         latestTimestamp := none, averageStateOfCharge := none }] ∧
    (fetchTelemetrySummary refArith (.arr [.str "a2", .str "a1"])
        ([sampleDoc (.str "a1") "X" 10 0 [⟨3000, .fin 0, .fin 20⟩, ⟨1000, .fin 1, .fin 20⟩],
          sampleDoc (.str "a2") "Y" 20 0 [], sampleDoc (.str "a3") "Z" 30 0 []].map
          Doc.toRaw)).length =
      (returnedAssets (.arr [.str "a2", .str "a1"])
        [sampleDoc (.str "a1") "X" 10 0 [⟨3000, .fin 0, .fin 20⟩, ⟨1000, .fin 1, .fin 20⟩],
          sampleDoc (.str "a2") "Y" 20 0 [], sampleDoc (.str "a3") "Z" 30 0 []]).length := by
  have h1 : ∀ d ∈ [sampleDoc (.str "a1") "X" 10 0
        [⟨3000, .fin 0, .fin 20⟩, ⟨1000, .fin 1, .fin 20⟩],
      sampleDoc (.str "a2") "Y" 20 0 [], sampleDoc (.str "a3") "Z" 30 0 []],
      ∀ x ∈ d.metrics, x.stateOfCharge ≠ .nan := by decide
  exact ⟨h1, by decide, by decide,
    (C13_fetchTelemetrySummary refArith (.arr [.str "a2", .str "a1"])
      [sampleDoc (.str "a1") "X" 10 0 [⟨3000, .fin 0, .fin 20⟩, ⟨1000, .fin 1, .fin 20⟩],
        sampleDoc (.str "a2") "Y" 20 0 [], sampleDoc (.str "a3") "Z" 30 0 []] h1).length_eq.symm⟩

/-- C14 fails on the code: on one asset with one metric whose timestamp is
missing, `calculateDashboardMetrics` throws (the `RangeError` of
`toISOString()` on an invalid `Date`), while the summary computation of
`fetchTelemetrySummary` returns for the same asset, with an invalid `Date` as
latestTimestamp. -/
theorem C14_dashboard_throws_on_missing_timestamp :
    calculateDashboardMetrics refArith
        [{ assetId := .str "a1", site := .str "Glenn", region := .str "X",
           status := .str "online", capacityMWh := some (.fin 10),
           availability := some (.fin 1), roundTripEfficiency := some (.fin 1),
           metrics := some [{ timestamp := none, stateOfCharge := some (.fin 1) }] }] =
      .error .invalidTimeValue ∧
    summarise refArith
        { assetId := .str "a1", site := .str "Glenn", region := .str "X",
          status := .str "online", capacityMWh := some (.fin 10),
          availability := some (.fin 1), roundTripEfficiency := some (.fin 1),
          metrics := some [{ timestamp := none, stateOfCharge := some (.fin 1) }] } =
      { assetId := .str "a1", site := .str "Glenn", region := .str "X", metricsCount := 1,
        latestTimestamp := some none, averageStateOfCharge := some (.fin 1) } := by
  decide

/-- C15: for every store and every batch on which `ingestTelemetry` succeeds,
the returned `metricsInserted` equals the total number of metrics stored across
all assets after the run minus the total number stored before the run. -/
theorem C15_metricsInserted_is_growth (H : Host) (clock : Nat → Int) (s : Store)
    (records : JSVal) (res : IngestResult)
    (h : (ingestTelemetry H clock s records).2 = .ok res) :
    totalMetrics s ≤ totalMetrics (ingestTelemetry H clock s records).1 ∧
    res.metricsInserted =
      totalMetrics (ingestTelemetry H clock s records).1 - totalMetrics s := by
  cases records with
  | arr rs =>
    have := ingestLoop_totalMetrics H clock rs 0 s zeroResult res h
    have hz : zeroResult.metricsInserted = 0 := rfl
    show totalMetrics s ≤ totalMetrics (ingestLoop H clock 0 s zeroResult rs).1 ∧
      res.metricsInserted = totalMetrics (ingestLoop H clock 0 s zeroResult rs).1 - totalMetrics s
    omega
  | undefined => simp [ingestTelemetry] at h
  | null => simp [ingestTelemetry] at h
  | bool b => simp [ingestTelemetry] at h
  | num n => simp [ingestTelemetry] at h
  | str x => simp [ingestTelemetry] at h
  | date t => simp [ingestTelemetry] at h
  | obj fs => simp [ingestTelemetry] at h

theorem C15_metricsInserted_is_growth_witness :
    (ingestTelemetry refHost (fun _ => 7)
        [sampleDoc (.str "a1") "Ohio" 10 0 [⟨1000, .fin 1, .fin 20⟩, ⟨2000, .fin 1, .fin 21⟩]]
        (.arr [sampleRecord (.str "a1") "Ohio" 10 [sampleMetric 1000 1 20, sampleMetric 3000 0 22],
          sampleRecord (.str "a2") "Utah" 30 [sampleMetric 1000 1 20]])).2 =
      .ok { assetsProcessed := 2, newAssets := 1, metricsInserted := 2 } ∧
    (2 : Nat) =
      totalMetrics (ingestTelemetry refHost (fun _ => 7)
        [sampleDoc (.str "a1") "Ohio" 10 0 [⟨1000, .fin 1, .fin 20⟩, ⟨2000, .fin 1, .fin 21⟩]]
        (.arr [sampleRecord (.str "a1") "Ohio" 10 [sampleMetric 1000 1 20, sampleMetric 3000 0 22],
          sampleRecord (.str "a2") "Utah" 30 [sampleMetric 1000 1 20]])).1 -
      totalMetrics
        [sampleDoc (.str "a1") "Ohio" 10 0 [⟨1000, .fin 1, .fin 20⟩, ⟨2000, .fin 1, .fin 21⟩]] :=
  ⟨by decide, (C15_metricsInserted_is_growth refHost (fun _ => 7)
    [sampleDoc (.str "a1") "Ohio" 10 0 [⟨1000, .fin 1, .fin 20⟩, ⟨2000, .fin 1, .fin 21⟩]]
    (.arr [sampleRecord (.str "a1") "Ohio" 10 [sampleMetric 1000 1 20, sampleMetric 3000 0 22],
      sampleRecord (.str "a2") "Utah" 30 [sampleMetric 1000 1 20]])
    { assetsProcessed := 2, newAssets := 1, metricsInserted := 2 } (by decide)).2⟩

end Bess
